import Mathlib

/-!
Shallow embedding of `src/db.py`, a TinyDB-backed JSON store synchronizer.

The store (a TinyDB database) is a sequence of JSON documents in insertion
order; the filesystem is a partial map from paths to file contents.  The
Python `json` module (an external library used by the source) is modelled
by an executable serializer (`dumpV`, matching `json.dump` with and without
`indent`) and an executable recursive-descent parser (`parseVal`, matching
`json.load`), both over a JSON value type without floats.  Floating-point
literals are outside the model: the parser rejects a number followed by
`.`, `e` or `E` where Python would build a float.
-/

/- JSON values as produced by Python's `json.load`: `null`, booleans,
integers (floats are outside the model), strings, arrays and objects.
Objects keep their members in insertion order, as Python dicts do. -/
mutual
inductive Json where
  | null : Json
  | bool (b : Bool) : Json
  | num (n : Int) : Json
  | str (s : String) : Json
  | arr (xs : JsonItems) : Json
  | obj (kvs : JsonMembers) : Json
  deriving DecidableEq
inductive JsonItems where
  | nil : JsonItems
  | cons (x : Json) (xs : JsonItems) : JsonItems
  deriving DecidableEq
inductive JsonMembers where
  | nil : JsonMembers
  | cons (k : String) (v : Json) (rest : JsonMembers) : JsonMembers
  deriving DecidableEq
end

/-- Python `d[k]` on a dict: the value stored under `k`, if any.  Members of
a dict built by Python have distinct keys, so taking the first match is
exact on every state Python can build. -/
def JsonMembers.lookup : JsonMembers → String → Option Json
  | .nil, _ => none
  | .cons k v rest, key => if k = key then some v else rest.lookup key

/-- Python `k in d` on a dict. -/
def JsonMembers.hasKey : JsonMembers → String → Bool
  | .nil, _ => false
  | .cons k _ rest, key => k = key || rest.hasKey key

/-- Python `d[k] = v` on a dict: replace the value in place when the key is
present (keeping its position), append the member otherwise. -/
def JsonMembers.setKey : JsonMembers → String → Json → JsonMembers
  | .nil, key, v => .cons key v .nil
  | .cons k w rest, key, v =>
    if k = key then .cons k v rest else .cons k w (rest.setKey key v)

/-- The keys of an object, in order. -/
def JsonMembers.keys : JsonMembers → List String
  | .nil => []
  | .cons k _ rest => k :: rest.keys

/-- Subscript read `e[k]` on a JSON value: only objects support it. -/
def jget (j : Json) (k : String) : Option Json :=
  match j with
  | .obj kvs => kvs.lookup k
  | _ => none

/-- Subscript write `e[k] = v` on a JSON value: `none` models the
`TypeError` Python raises when `e` is not a dict. -/
def jset (j : Json) (k : String) (v : Json) : Option Json :=
  match j with
  | .obj kvs => some (.obj (kvs.setKey k v))
  | _ => none

/-- Whether some key occurs twice among an object's members. -/
def dupKeys : JsonMembers → Bool
  | .nil => false
  | .cons k _ rest => rest.hasKey k || dupKeys rest

/- A JSON value every Python `json.load` result satisfies: object keys are
distinct at every nesting level (Python dicts cannot hold a key twice). -/
mutual
def wfV : Json → Bool
  | .arr xs => wfItems xs
  | .obj kvs => !(dupKeys kvs) && wfMembers kvs
  | _ => true
def wfItems : JsonItems → Bool
  | .nil => true
  | .cons x xs => wfV x && wfItems xs
def wfMembers : JsonMembers → Bool
  | .nil => true
  | .cons _ v rest => wfV v && wfMembers rest
end

/-! ## Serialization: Python `json.dump`

`save_sample` calls `json.dump(data, f, indent=json_indent)` when the
indent is positive and `json.dump(data, f)` otherwise.  CPython's encoder
writes, between the tokens of a container, whitespace that depends only on
the nesting depth: nothing for the compact form (whose item separator is
`", "` and key separator `": "`), and a newline plus `indent * depth`
spaces for the pretty form (item separator `","` plus that newline).  The
two forms are the two instances `compactWs` and `indentWs n` of one
whitespace schedule. -/

/-- The whitespace the encoder writes after an opening bracket (`opn`),
after an item separator comma (`sep`) and before a closing bracket (`cls`),
as a function of the depth of the container being written. -/
structure WsParams where
  opn : Nat → List Char
  sep : Nat → List Char
  cls : Nat → List Char

/-- Whitespace schedule of `json.dump(data, f)`: no newlines, one space
after each comma (the default `", "` item separator), nothing else. -/
def compactWs : WsParams := ⟨fun _ => [], fun _ => [' '], fun _ => []⟩

/-- Whitespace schedule of `json.dump(data, f, indent=n)` for `n > 0`: a
newline plus `n * (depth + 1)` spaces after an opening bracket and after
each comma, a newline plus `n * depth` spaces before a closing bracket. -/
def indentWs (n : Nat) : WsParams :=
  ⟨fun d => '\n' :: List.replicate (n * (d + 1)) ' ',
   fun d => '\n' :: List.replicate (n * (d + 1)) ' ',
   fun d => '\n' :: List.replicate (n * d) ' '⟩

/-- The decimal digit characters of a natural number, as Python's `str`. -/
def natToChars (n : Nat) : List Char :=
  if h : n < 10 then [Char.ofNat (48 + n)]
  else natToChars (n / 10) ++ [Char.ofNat (48 + n % 10)]
decreasing_by exact Nat.div_lt_self (by omega) (by omega)

/-- Python `str` of an int: a minus sign for negatives, then digits. -/
def intToChars (n : Int) : List Char :=
  if n < 0 then '-' :: natToChars (-n).toNat else natToChars n.toNat

/-- Lowercase hexadecimal digit, as in CPython's `\uXXXX` escapes. -/
def hexCh (d : Nat) : Char :=
  if d < 10 then Char.ofNat (48 + d) else Char.ofNat (87 + d)

/-- Four lowercase hex digits of `n < 0x10000`. -/
def hex4 (n : Nat) : List Char :=
  [hexCh (n / 4096 % 16), hexCh (n / 256 % 16), hexCh (n / 16 % 16), hexCh (n % 16)]

/-- How CPython's `ensure_ascii` encoder writes one character of a string:
`"` and `\` get a backslash escape, the control characters with short
escapes use them, other controls and every non-ASCII character become
`\uXXXX` (a surrogate pair beyond the BMP), printable ASCII is literal. -/
def escChar (c : Char) : List Char :=
  if c = '"' then ['\\', '"']
  else if c = '\\' then ['\\', '\\']
  else if c.toNat = 8 then ['\\', 'b']
  else if c.toNat = 9 then ['\\', 't']
  else if c.toNat = 10 then ['\\', 'n']
  else if c.toNat = 12 then ['\\', 'f']
  else if c.toNat = 13 then ['\\', 'r']
  else if c.toNat < 32 then '\\' :: 'u' :: hex4 c.toNat
  else if c.toNat < 127 then [c]
  else if c.toNat < 65536 then '\\' :: 'u' :: hex4 c.toNat
  else
    '\\' :: 'u' :: hex4 (55296 + (c.toNat - 65536) / 1024) ++
      '\\' :: 'u' :: hex4 (56320 + (c.toNat - 65536) % 1024)

/-- The escaped body of a string literal. -/
def escBody : List Char → List Char
  | [] => []
  | c :: cs => escChar c ++ escBody cs

/-- A JSON string literal: quote, escaped body, quote. -/
def dumpStr (s : String) : List Char :=
  '"' :: escBody s.data ++ ['"']

/- The characters `json.dump` writes for a value nested at depth `d`,
under the whitespace schedule `p`.  The container cases spell out
CPython's `item_separator.join` as one leading item followed by
comma-prefixed rest items (`dumpItemsRest`, `dumpMembersRest`), which
writes the identical character sequence. -/
mutual
def dumpV (p : WsParams) : Json → Nat → List Char
  | .null, _ => ['n', 'u', 'l', 'l']
  | .bool true, _ => ['t', 'r', 'u', 'e']
  | .bool false, _ => ['f', 'a', 'l', 's', 'e']
  | .num n, _ => intToChars n
  | .str s, _ => dumpStr s
  | .arr .nil, _ => ['[', ']']
  | .arr (.cons x xs), d =>
    '[' :: (p.opn d ++ dumpV p x (d + 1) ++ dumpItemsRest p xs d)
  | .obj .nil, _ => ['{', '}']
  | .obj (.cons k v kvs), d =>
    '{' :: (p.opn d ++ dumpStr k ++ ':' :: ' ' :: dumpV p v (d + 1) ++
      dumpMembersRest p kvs d)
def dumpItemsRest (p : WsParams) : JsonItems → Nat → List Char
  | .nil, d => p.cls d ++ [']']
  | .cons x xs, d => ',' :: p.sep d ++ dumpV p x (d + 1) ++ dumpItemsRest p xs d
def dumpMembersRest (p : WsParams) : JsonMembers → Nat → List Char
  | .nil, d => p.cls d ++ ['}']
  | .cons k v kvs, d =>
    ',' :: p.sep d ++ dumpStr k ++ ':' :: ' ' :: dumpV p v (d + 1) ++
      dumpMembersRest p kvs d
end

/-- The file content `save_sample` writes for an entry: `json.dump` with
`indent=json_indent` when the indent argument is positive, the compact
form otherwise (lines 99-102 of `db.py`). -/
def dumpPy (e : Json) (json_indent : Int) : String :=
  if json_indent > 0 then ⟨dumpV (indentWs json_indent.toNat) e 0⟩
  else ⟨dumpV compactWs e 0⟩

/-! ## Parsing: Python `json.load`

A fuel-bounded recursive-descent parser over the same grammar CPython's
`json` scanner accepts on the float-free fragment: optional whitespace
between tokens, `null`/`true`/`false`, integers (a number continuing with
`.`, `e` or `E` would be a Python float and is rejected as outside the
model), strings with the standard backslash escapes (`\uXXXX` including
surrogate pairs; a lone surrogate, which Python would keep as a lone
surrogate code unit, is rejected as unrepresentable in a Lean string),
arrays and objects.  `json_load` runs the parser with fuel one larger than
the input length, enough for every input whose parse succeeds at all. -/

/-- The whitespace characters Python's `json` scanner skips. -/
def isWsCh (c : Char) : Bool :=
  c = ' ' || c = '\t' || c = '\n' || c = '\r'

/-- Drop leading whitespace. -/
def skipWs : List Char → List Char
  | [] => []
  | c :: cs => if isWsCh c then skipWs cs else c :: cs

/-- The value of one hexadecimal digit character, either case. -/
def hexDigVal (c : Char) : Option Nat :=
  if 48 ≤ c.toNat ∧ c.toNat ≤ 57 then some (c.toNat - 48)
  else if 97 ≤ c.toNat ∧ c.toNat ≤ 102 then some (c.toNat - 87)
  else if 65 ≤ c.toNat ∧ c.toNat ≤ 70 then some (c.toNat - 55)
  else none

/-- Four hex digits, most significant first. -/
def parseHex4 : List Char → Option (Nat × List Char)
  | a :: b :: c :: d :: r =>
    match hexDigVal a, hexDigVal b, hexDigVal c, hexDigVal d with
    | some x, some y, some z, some w => some (x * 4096 + y * 256 + z * 16 + w, r)
    | _, _, _, _ => none
  | _ => none

/-- Prepend a decoded character to a string-body parse result. -/
def consCh (c : Char) : Option (List Char × List Char) → Option (List Char × List Char)
  | some (cs, r) => some (c :: cs, r)
  | none => none

/-- Decode a string body up to and including the closing quote, as
CPython's `py_scanstring` with `strict=True`: a raw control character is an
error, a backslash starts one of the short escapes or `\uXXXX`, a high
surrogate followed by `\u`-escaped low surrogate combines into one scalar.
A lone surrogate is rejected (see the section comment). -/
def parseStrBody : Nat → List Char → Option (List Char × List Char)
  | 0, _ => none
  | fuel + 1, s =>
    match s with
    | [] => none
    | c :: r =>
      if c = '"' then some ([], r)
      else if c = '\\' then
        match r with
        | [] => none
        | e :: r1 =>
          if e = '"' then consCh '"' (parseStrBody fuel r1)
          else if e = '\\' then consCh '\\' (parseStrBody fuel r1)
          else if e = '/' then consCh '/' (parseStrBody fuel r1)
          else if e = 'b' then consCh (Char.ofNat 8) (parseStrBody fuel r1)
          else if e = 'f' then consCh (Char.ofNat 12) (parseStrBody fuel r1)
          else if e = 'n' then consCh (Char.ofNat 10) (parseStrBody fuel r1)
          else if e = 'r' then consCh (Char.ofNat 13) (parseStrBody fuel r1)
          else if e = 't' then consCh (Char.ofNat 9) (parseStrBody fuel r1)
          else if e = 'u' then
            match parseHex4 r1 with
            | none => none
            | some (n, r2) =>
              if n < 55296 ∨ 57343 < n then consCh (Char.ofNat n) (parseStrBody fuel r2)
              else if n < 56320 then
                match r2 with
                | '\\' :: 'u' :: r3 =>
                  match parseHex4 r3 with
                  | some (m, r4) =>
                    if 56320 ≤ m ∧ m ≤ 57343 then
                      consCh (Char.ofNat (65536 + (n - 55296) * 1024 + (m - 56320)))
                        (parseStrBody fuel r4)
                    else none
                  | none => none
                | _ => none
              else none
          else none
      else if c.toNat < 32 then none
      else consCh c (parseStrBody fuel r)

/-- Longest digit prefix and the remainder. -/
def spanDigits : List Char → List Char × List Char
  | [] => ([], [])
  | c :: cs =>
    if c.isDigit then
      let (ds, r) := spanDigits cs
      (c :: ds, r)
    else ([], c :: cs)

/-- Value of a digit string, most significant first. -/
def digitsVal (ds : List Char) : Nat :=
  ds.foldl (fun a c => a * 10 + (c.toNat - 48)) 0

/-- Parse an integer literal after the optional minus sign has been
consumed.  A multi-digit literal may not start with `0` (CPython's
`NUMBER_RE` allows `0` or a nonzero leading digit), and a number
continuing with `.`, `e` or `E` is a Python float, outside the model (see
the section comment). -/
def parseNum (neg : Bool) (s : List Char) : Option (Json × List Char) :=
  let (ds, r) := spanDigits s
  if ds.isEmpty then none
  else if 1 < ds.length ∧ ds.head? = some '0' then none
  else
    match r with
    | c :: _ =>
      if c = '.' ∨ c = 'e' ∨ c = 'E' then none
      else some (.num (if neg then -(digitsVal ds : Int) else (digitsVal ds : Int)), r)
    | [] => some (.num (if neg then -(digitsVal ds : Int) else (digitsVal ds : Int)), r)

/- The recursive-descent core.  Every recursive call runs on one unit less
fuel; `json_load` supplies enough for any input that parses at all. -/
mutual
def parseVal : Nat → List Char → Option (Json × List Char)
  | 0, _ => none
  | fuel + 1, s =>
    match skipWs s with
    | [] => none
    | c :: r =>
      if c = 'n' then
        match r with
        | 'u' :: 'l' :: 'l' :: r2 => some (.null, r2)
        | _ => none
      else if c = 't' then
        match r with
        | 'r' :: 'u' :: 'e' :: r2 => some (.bool true, r2)
        | _ => none
      else if c = 'f' then
        match r with
        | 'a' :: 'l' :: 's' :: 'e' :: r2 => some (.bool false, r2)
        | _ => none
      else if c = '"' then
        match parseStrBody fuel r with
        | some (cs, r1) => some (.str ⟨cs⟩, r1)
        | none => none
      else if c = '[' then parseArrBody fuel r
      else if c = '{' then parseObjBody fuel r
      else if c = '-' then parseNum true r
      else if c.isDigit then parseNum false (c :: r)
      else none
def parseArrBody : Nat → List Char → Option (Json × List Char)
  | 0, _ => none
  | fuel + 1, s =>
    match skipWs s with
    | [] => none
    | c :: r =>
      if c = ']' then some (.arr .nil, r)
      else
        match parseVal fuel (c :: r) with
        | some (v, r1) =>
          match parseItemsRest fuel r1 with
          | some (vs, r2) => some (.arr (.cons v vs), r2)
          | none => none
        | none => none
def parseItemsRest : Nat → List Char → Option (JsonItems × List Char)
  | 0, _ => none
  | fuel + 1, s =>
    match skipWs s with
    | [] => none
    | c :: r =>
      if c = ']' then some (.nil, r)
      else if c = ',' then
        match parseVal fuel r with
        | some (v, r1) =>
          match parseItemsRest fuel r1 with
          | some (vs, r2) => some (.cons v vs, r2)
          | none => none
        | none => none
      else none
def parseObjBody : Nat → List Char → Option (Json × List Char)
  | 0, _ => none
  | fuel + 1, s =>
    match skipWs s with
    | [] => none
    | c :: r =>
      if c = '}' then some (.obj .nil, r)
      else
        match parseMember fuel (c :: r) with
        | some (k, v, r1) =>
          match parseMembersRest fuel r1 with
          | some (ms, r2) => some (.obj (.cons k v ms), r2)
          | none => none
        | none => none
def parseMember : Nat → List Char → Option (String × Json × List Char)
  | 0, _ => none
  | fuel + 1, s =>
    match skipWs s with
    | [] => none
    | c :: r =>
      if c = '"' then
        match parseStrBody fuel r with
        | some (ks, r1) =>
          match skipWs r1 with
          | [] => none
          | c2 :: r2 =>
            if c2 = ':' then
              match parseVal fuel r2 with
              | some (v, r3) => some (⟨ks⟩, v, r3)
              | none => none
            else none
        | none => none
      else none
def parseMembersRest : Nat → List Char → Option (JsonMembers × List Char)
  | 0, _ => none
  | fuel + 1, s =>
    match skipWs s with
    | [] => none
    | c :: r =>
      if c = '}' then some (.nil, r)
      else if c = ',' then
        match parseMember fuel r with
        | some (k, v, r1) =>
          match parseMembersRest fuel r1 with
          | some (ms, r2) => some (.cons k v ms, r2)
          | none => none
        | none => none
      else none
end

/-- Python `json.load`: parse one value, allow trailing whitespace only.
Both `None` results of this model are uncaught exceptions in the source
(`json.JSONDecodeError` propagates and terminates the run). -/
def json_load (s : String) : Option Json :=
  match parseVal (s.data.length + 1) s.data with
  | some (v, r) => if skipWs r = [] then some v else none
  | none => none

/-! ## The document store and the operations of `db.py`

A TinyDB database is a sequence of JSON documents in insertion order
(`db.insert` appends, `db.remove(cond)` deletes every matching document,
iteration and `db.search` visit documents in that order).  The filesystem
is a partial map from path strings to file contents; `os.listdir` has no
specified order, so the directory listing is a parameter of `load_samples`.
Messages printed by an operation are returned alongside its result; purely
informational banner prints (the first line of `load_samples` and of
`save_samples`) are not modelled.  A `false`/`none` outcome marks a Python
exception propagating out of the operation. -/

abbrev Store := List Json

/-- The key every entry is indexed by. -/
def idKey : String := "id"

/-- The literal `'.json'` suffix the source appends to paths. -/
def jsonExt : String := ".json"

/-- The hardcoded path separator of the source: `f'{samples_dir}\\{f}'`
and `f'{samples_dir}\\{i}.json'` join paths with a literal backslash. -/
def pathBackslash : String := "\\"

/-- Python `f'{x}'` (that is, `str()`) of a JSON value, as the source
interpolates ids into messages and paths.  Every id the Synchronizer
stores is a string, and `str()` is the identity on strings; the remaining
cases follow Python's rendering for the scalars, and reuse the JSON dump
for containers (Python's `repr` quoting differs there — no claim touches a
non-string id). -/
def pyStr : Json → String
  | .str s => s
  | .num n => ⟨intToChars n⟩
  | .bool true => "True"
  | .bool false => "False"
  | .null => "None"
  | v => ⟨dumpV compactWs v 0⟩

/-- The TinyDB query `Query().id == entry_id`: a document matches when it
has an `id` member whose value equals the queried value. -/
def matches_id (e : Json) (i : Json) : Bool :=
  jget e idKey == some i

/-- TinyDB `db.search(Query().id == entry_id)`: the matching documents, in
document order. -/
def db_search (db : Store) (i : Json) : List Json :=
  db.filter (fun e => matches_id e i)

/-- `get_entries` (lines 7-9): `db.search(q.id == entry_id)`. -/
def get_entries (db : Store) (entry_id : Json) : List Json :=
  db_search db entry_id

/-- `entry_exists` (lines 12-14): `len(db.search(q.id == entry_id)) > 0`. -/
def entry_exists (db : Store) (entry_id : Json) : Bool :=
  decide (0 < (db_search db entry_id).length)

/-- `truncate` (lines 17-19): `db.truncate()` removes all entries. -/
def truncate (_db : Store) : Store × List String :=
  ([], ["DB truncated"])

/-- `remove_entry` (lines 22-29): report and no-op when no entry matches,
otherwise `db.remove(q.id == entry_id)` deletes every matching entry. -/
def remove_entry (db : Store) (entry_id : Json) : Store × List String :=
  if !(entry_exists db entry_id) then
    (db, ["no data found for ID " ++ pyStr entry_id])
  else
    (db.filter (fun e => !(matches_id e entry_id)), [])

/-- Sort key under which the model runs Python's `res.sort()`: the
identity on strings.  Every id the Synchronizer stores is a string, and
Python sorts a list of strings ascending by code point, as Lean's
`String` order does.  On a list with members of mixed types Python's sort
would raise `TypeError`; the model instead orders non-strings by their
serialization — no claim exercises such a state. -/
def idSortKey : Json → String
  | .str s => s
  | v => ⟨dumpV compactWs v 0⟩

/-- Lexicographic string order by code point — how Python compares two
strings. -/
def charsLe : List Char → List Char → Bool
  | [], _ => true
  | _ :: _, [] => false
  | a :: as, b :: bs =>
    if a.toNat < b.toNat then true
    else if b.toNat < a.toNat then false
    else charsLe as bs

/-- The ascending order `res.sort()` uses, lifted through the sort key. -/
def keyLe (a b : Json) : Prop :=
  charsLe (idSortKey a).data (idSortKey b).data = true

instance : DecidableRel keyLe := fun _ _ => inferInstanceAs (Decidable (_ = _))

/-- Python `res.sort()` on the collected ids: a stable ascending sort. -/
def sortIds (l : List Json) : List Json :=
  l.insertionSort keyLe

/-- The loop of `get_entry_ids` (lines 35-36): `res.append(e['id'])` for
each document; a document without an `id` member raises `KeyError`,
modelled as `none`. -/
def collectIds : Store → Option (List Json)
  | [] => some []
  | e :: db =>
    match jget e idKey with
    | none => none
    | some i => (collectIds db).map (i :: ·)

/-- `get_entry_ids` (lines 32-38): collect every document's `id`, sort. -/
def get_entry_ids (db : Store) : Option (List Json) :=
  (collectIds db).map sortIds

/-- `list_ids` (lines 41-50): the lines printed — an empty-store message,
or a count line followed by one indented line per id. -/
def list_ids (db : Store) : Option (List String) :=
  (get_entry_ids db).map (fun ids =>
    if ids.isEmpty then ["the DB is empty"]
    else (toString ids.length ++ " IDs found:") :: ids.map (fun i => "  " ++ pyStr i))

/-- The filesystem: file contents by path. -/
abbrev FS := String → Option String

/-- Writing a file replaces that path's content and nothing else. -/
def FS.write (fs : FS) (path content : String) : FS :=
  fun p => if p = path then some content else fs p

/-- Result of a load operation: the store afterwards, the messages
printed, and whether it completed without an exception (`ok = false`
models an uncaught exception, with the store as it was at that point). -/
structure LoadOutcome where
  db : Store
  msgs : List String
  ok : Bool
  deriving DecidableEq

/-- `load_sample` (lines 67-84): read and parse the file, set the parsed
document's `id` member to `entry_id`, then insert — skipping with a
warning when `keep_existing` and the id exists, and removing the previous
entries with an overwrite warning when not `keep_existing` and the id
exists.  A missing file, malformed JSON, or a non-object document (whose
`data['id'] = entry_id` raises `TypeError`) is an exception: the store is
unchanged and `ok` is false. -/
def load_sample (fs : FS) (db : Store) (json_file : String) (entry_id : String)
    (keep_existing : Bool) : LoadOutcome :=
  match fs json_file with
  | none => ⟨db, [], false⟩
  | some content =>
    match json_load content with
    | none => ⟨db, [], false⟩
    | some parsed =>
      match jset parsed idKey (.str entry_id) with
      | none => ⟨db, [], false⟩
      | some data =>
        if keep_existing then
          if entry_exists db (.str entry_id) then
            ⟨db, ["warning: " ++ entry_id ++ " already exists, will not add"], true⟩
          else
            ⟨db ++ [data], [entry_id ++ " inserted"], true⟩
        else
          if entry_exists db (.str entry_id) then
            let r := remove_entry db (.str entry_id)
            ⟨r.1 ++ [data],
              ["warning: overwriting " ++ entry_id] ++ r.2 ++ [entry_id ++ " inserted"], true⟩
          else
            ⟨db ++ [data], [entry_id ++ " inserted"], true⟩

/-- Python `'.json' in f`: whether `.json` occurs as a substring. -/
def hasJsonSub : List Char → Bool
  | '.' :: 'j' :: 's' :: 'o' :: 'n' :: _ => true
  | _ :: cs => hasJsonSub cs
  | [] => false

/-- Python `f.replace('.json', '')`: scanning left to right, every
(non-overlapping) occurrence of `.json` is removed. -/
def removeJsonAll : List Char → List Char
  | '.' :: 'j' :: 's' :: 'o' :: 'n' :: rest => removeJsonAll rest
  | c :: cs => c :: removeJsonAll cs
  | [] => []

/-- The loop of `load_samples` (lines 60-64): each file name containing
`.json` is loaded from `samples_dir` under the id obtained by
`f.replace('.json', '')`; other names are skipped with a warning.  An
exception inside `load_sample` propagates: the loop stops, keeping the
store mutated so far. -/
def load_samples_go (fs : FS) (samples_dir : String) (keep_existing : Bool) :
    Store → List String → LoadOutcome
  | db, [] => ⟨db, [], true⟩
  | db, f :: rest =>
    if hasJsonSub f.data then
      let r := load_sample fs db (samples_dir ++ pathBackslash ++ f)
        ⟨removeJsonAll f.data⟩ keep_existing
      if r.ok then
        let r2 := load_samples_go fs samples_dir keep_existing r.db rest
        ⟨r2.db, r.msgs ++ r2.msgs, r2.ok⟩
      else r
    else
      let r2 := load_samples_go fs samples_dir keep_existing db rest
      ⟨r2.db, ("warning: " ++ f ++ " has no json extension, skipping") :: r2.msgs, r2.ok⟩

/-- `load_samples` (lines 53-64): optionally truncate, then process the
directory listing (an `os.listdir` result, whose order the OS picks). -/
def load_samples (fs : FS) (db : Store) (samples_dir : String) (listing : List String)
    (truncate_db keep_existing : Bool) : LoadOutcome :=
  let db0 := if truncate_db then (truncate db).1 else db
  let msgs0 := if truncate_db then (truncate db).2 else []
  let r := load_samples_go fs samples_dir keep_existing db0 listing
  ⟨r.db, msgs0 ++ r.msgs, r.ok⟩

/-- The path `save_sample` writes: `f'{samples_dir}\\{i}.json'`. -/
def save_path (samples_dir : String) (i : Json) : String :=
  samples_dir ++ pathBackslash ++ pyStr i ++ jsonExt

/-- `save_sample` (lines 87-102): look the id up; report and return when
nothing matches; report an integrity error (but proceed) on more than one
match; serialize the first match to `save_path`, pretty-printed exactly
when the indent argument is positive.  The store is returned unchanged:
the source never mutates it here. -/
def save_sample (fs : FS) (db : Store) (samples_dir : String) (i : Json)
    (json_indent : Int) : Store × FS × List String :=
  match get_entries db i with
  | [] => (db, fs, ["no data found for ID " ++ pyStr i])
  | e :: rest =>
    let msgs := if 0 < rest.length then ["error: invalid number of entries for ID " ++ pyStr i] else []
    (db, fs.write (save_path samples_dir i) (dumpPy e json_indent), msgs)

/-- The loop of `save_samples` (lines 114-116). -/
def save_samples_go (db : Store) (samples_dir : String) (json_indent : Int) :
    FS → List Json → FS × List String
  | fs, [] => (fs, [])
  | fs, i :: ids =>
    let r := save_sample fs db samples_dir i json_indent
    let r2 := save_samples_go db samples_dir json_indent r.2.1 ids
    (r2.1, r.2.2 ++ r2.2)

/-- `save_samples` (lines 105-116): save every id, in `get_entry_ids`
order; `none` is the `KeyError` of the id enumeration.  Directory
creation (`os.makedirs`, with a warning when the directory exists) is a
filesystem side effect outside the file-content model. -/
def save_samples (fs : FS) (db : Store) (samples_dir : String) (json_indent : Int) :
    Option (Store × FS × List String) :=
  (get_entry_ids db).map (fun ids =>
    let r := save_samples_go db samples_dir json_indent fs ids
    (db, r.1, r.2))

/-- The spec's data-model invariant: at most one entry per id value. -/
def StoreInv (db : Store) : Prop :=
  ∀ i : Json, (db_search db i).length ≤ 1

/-- The number of distinct id values present in the store (entries without
an `id` member carry no id value). -/
def distinctIdCount (db : Store) : Nat :=
  (db.filterMap (fun e => jget e idKey)).dedup.length


/-! ## Spec-side renderings of the filename-to-id derivation (for C2) -/

/-- What the spec's sentence describes: the filename with only the FIRST
occurrence of `.json` removed.  Written from the spec's words, to compare
with the source's `removeJsonAll` (Python `str.replace` removes every
occurrence). -/
def removeJsonFirst : List Char → List Char
  | '.' :: 'j' :: 's' :: 'o' :: 'n' :: rest => rest
  | c :: cs => c :: removeJsonFirst cs
  | [] => []

/-- Python `str.replace(pat, '')` for an arbitrary nonempty pattern:
scanning left to right, drop each occurrence and continue after it.  An
independent rendering of "every occurrence of the substring removed",
against which the source's five-character scanner is checked. -/
def removeOccAll (pat : List Char) (s : List Char) : List Char :=
  match s with
  | [] => []
  | c :: cs =>
    if h : pat ≠ [] ∧ pat.isPrefixOf (c :: cs) = true then
      removeOccAll pat ((c :: cs).drop pat.length)
    else c :: removeOccAll pat cs
termination_by s.length
decreasing_by
  · have h1 : 1 ≤ pat.length := by
      cases pat with
      | nil => exact absurd rfl h.1
      | cons p ps => simp
    simp only [List.length_drop, List.length_cons]
    omega
  · simp

/-! ## Fuel accounting and whitespace predicates for the round trip (C5) -/

/-- All characters of a list are scanner whitespace. -/
def allWs (l : List Char) : Prop := ∀ c ∈ l, isWsCh c = true

/-- A whitespace schedule that only ever emits whitespace — true of the
compact and of every indented schedule. -/
def WsOk (p : WsParams) : Prop :=
  ∀ d, allWs (p.opn d) ∧ allWs (p.sep d) ∧ allWs (p.cls d)

/-- What may legally follow a serialized value so that the parser stops
exactly at its end: nothing, a separator comma, a closing bracket, or
whitespace. -/
def restOk (rest : List Char) : Prop :=
  match rest with
  | [] => True
  | c :: _ => c = ',' ∨ c = ']' ∨ c = '}' ∨ isWsCh c = true

/- Fuel sufficient for the parser on the serialization of a value: one
unit per recursive call the parse makes. -/
mutual
def needVal : Json → Nat
  | .null => 1
  | .bool _ => 1
  | .num _ => 1
  | .str s => s.data.length + 2
  | .arr .nil => 2
  | .arr (.cons x xs) => 2 + max (needVal x) (needItemsRest xs)
  | .obj .nil => 2
  | .obj (.cons k v ms) => 2 + max (needMember k v) (needMembersRest ms)
def needMember (k : String) (v : Json) : Nat :=
  1 + max (k.data.length + 1) (needVal v)
def needItemsRest : JsonItems → Nat
  | .nil => 1
  | .cons x xs => 1 + max (needVal x) (needItemsRest xs)
def needMembersRest : JsonMembers → Nat
  | .nil => 1
  | .cons k v ms => 1 + max (needMember k v) (needMembersRest ms)
end

/-! ## Basic store lemmas -/

theorem lookup_setKey_self : ∀ (kvs : JsonMembers) (k : String) (v : Json),
    (kvs.setKey k v).lookup k = some v
  | .nil, k, v => by simp [JsonMembers.setKey, JsonMembers.lookup]
  | .cons k' w rest, k, v => by
    by_cases h : k' = k <;>
      simp [JsonMembers.setKey, JsonMembers.lookup, h, lookup_setKey_self rest k v]

theorem jget_jset (j j' : Json) (k : String) (v : Json) (h : jset j k v = some j') :
    jget j' k = some v := by
  cases j <;> simp [jset] at h
  subst h
  simp [jget, lookup_setKey_self]

theorem db_search_append (db1 db2 : Store) (i : Json) :
    db_search (db1 ++ db2) i = db_search db1 i ++ db_search db2 i := by
  simp [db_search]

theorem db_search_single (e i : Json) (h : matches_id e i = true) :
    db_search [e] i = [e] := by
  simp [db_search, h]

theorem matches_id_of_jget (e i : Json) (h : jget e idKey = some i) :
    matches_id e i = true := by
  simp [matches_id, h]

theorem entry_exists_false_iff (db : Store) (i : Json) :
    entry_exists db i = false ↔ db_search db i = [] := by
  simp [entry_exists, List.length_eq_zero]

theorem db_search_remove_self (db : Store) (i : Json) :
    db_search (remove_entry db i).1 i = [] := by
  unfold remove_entry
  split
  · next h =>
    simp only [Bool.not_eq_true'] at h
    exact (entry_exists_false_iff db i).mp h
  · simp only [db_search, List.filter_filter]
    have h : ∀ e : Json, (matches_id e i && !matches_id e i) = false := by
      intro e; cases matches_id e i <;> rfl
    simp [h]

theorem entry_exists_remove_self (db : Store) (i : Json) :
    entry_exists (remove_entry db i).1 i = false := by
  rw [entry_exists_false_iff]
  exact db_search_remove_self db i

theorem db_search_remove_sublist (db : Store) (i j : Json) :
    List.Sublist (db_search (remove_entry db i).1 j) (db_search db j) := by
  unfold remove_entry
  split
  · exact List.Sublist.refl _
  · exact List.Sublist.filter _ (List.filter_sublist db)

/-- The invariant holds of the empty store. -/
theorem StoreInv_nil : StoreInv [] := by
  intro i; simp [db_search]

theorem StoreInv_remove (db : Store) (i : Json) (h : StoreInv db) :
    StoreInv (remove_entry db i).1 := by
  intro j
  exact le_trans (List.Sublist.length_le (db_search_remove_sublist db i j)) (h j)

/-- Appending an entry whose id matches nothing in the store keeps the
invariant. -/
theorem StoreInv_append (db : Store) (data i0 : Json) (hinv : StoreInv db)
    (hid : jget data idKey = some i0) (hnot : db_search db i0 = []) :
    StoreInv (db ++ [data]) := by
  intro j
  rw [db_search_append]
  by_cases hj : i0 = j
  · subst hj
    rw [hnot, db_search_single data i0 (matches_id_of_jget data i0 hid)]
    simp
  · have hm : matches_id data j = false := by
      simp [matches_id, hid, hj]
    have h0 : db_search [data] j = [] := by simp [db_search, hm]
    rw [h0]
    simpa using hinv j

/-! ## Case analysis of `load_sample` -/

/-- Every run of `load_sample` either fails leaving the store unchanged,
or succeeds in one of the three source branches: skip (keep an existing
entry), plain insert, or overwrite (remove then insert).  The inserted
document's `id` member is the string `entry_id` in every case. -/
theorem load_sample_cases (fs : FS) (db : Store) (f i : String) (keep : Bool) :
    ((load_sample fs db f i keep).ok = false ∧ (load_sample fs db f i keep).db = db) ∨
    (∃ data, jget data idKey = some (.str i) ∧ (load_sample fs db f i keep).ok = true ∧
      (((load_sample fs db f i keep).db = db ∧
          entry_exists db (.str i) = true ∧ keep = true) ∨
       ((load_sample fs db f i keep).db = db ++ [data] ∧
          entry_exists db (.str i) = false) ∨
       ((load_sample fs db f i keep).db = (remove_entry db (.str i)).1 ++ [data] ∧
          entry_exists db (.str i) = true ∧ keep = false))) := by
  cases hfs : fs f with
  | none => simp [load_sample, hfs]
  | some content =>
    cases hp : json_load content with
    | none => simp [load_sample, hfs, hp]
    | some parsed =>
      cases hset : jset parsed idKey (.str i) with
      | none => simp [load_sample, hfs, hp, hset]
      | some data =>
        have hid : jget data idKey = some (.str i) := jget_jset _ _ _ _ hset
        refine Or.inr ⟨data, hid, ?_⟩
        simp only [load_sample, hfs, hp, hset]
        cases keep with
        | true =>
          cases hex : entry_exists db (.str i) with
          | true => simp [hex]
          | false => simp [hex]
        | false =>
          cases hex : entry_exists db (.str i) with
          | true => simp [hex]
          | false => simp [hex]

theorem entry_exists_append_self (db : Store) (data i : Json)
    (hid : jget data idKey = some i) :
    entry_exists (db ++ [data]) i = true := by
  simp [entry_exists, db_search_append,
    db_search_single data i (matches_id_of_jget data i hid)]

theorem StoreInv_load_sample (fs : FS) (db : Store) (f i : String) (keep : Bool)
    (h : StoreInv db) : StoreInv (load_sample fs db f i keep).db := by
  rcases load_sample_cases fs db f i keep with ⟨_, hdb⟩ | ⟨data, hid, _, hcase⟩
  · rw [hdb]; exact h
  · rcases hcase with ⟨hdb, _, _⟩ | ⟨hdb, hex⟩ | ⟨hdb, _, _⟩
    · rw [hdb]; exact h
    · rw [hdb]
      exact StoreInv_append db data _ h hid ((entry_exists_false_iff _ _).mp hex)
    · rw [hdb]
      exact StoreInv_append _ data _ (StoreInv_remove db _ h) hid
        (db_search_remove_self db _)

theorem StoreInv_load_samples_go (fs : FS) (dir : String) (keep : Bool) :
    ∀ (listing : List String) (db : Store), StoreInv db →
      StoreInv (load_samples_go fs dir keep db listing).db
  | [], _, h => h
  | f :: rest, db, h => by
    by_cases h1 : hasJsonSub f.data
    · simp only [load_samples_go, h1, if_true]
      by_cases h2 : (load_sample fs db (dir ++ pathBackslash ++ f)
          ⟨removeJsonAll f.data⟩ keep).ok = true
      · simp only [h2, if_true]
        exact StoreInv_load_samples_go fs dir keep rest _
          (StoreInv_load_sample _ _ _ _ _ h)
      · simp only [h2, if_false]
        exact StoreInv_load_sample _ _ _ _ _ h
    · simp only [load_samples_go, h1, if_false]
      exact StoreInv_load_samples_go fs dir keep rest db h

theorem StoreInv_load_samples (fs : FS) (db : Store) (dir : String)
    (listing : List String) (tr keep : Bool) (h : StoreInv db) :
    StoreInv (load_samples fs db dir listing tr keep).db := by
  unfold load_samples
  cases tr with
  | true => exact StoreInv_load_samples_go fs dir keep listing [] StoreInv_nil
  | false => exact StoreInv_load_samples_go fs dir keep listing db h

theorem save_sample_db_unchanged (fs : FS) (db : Store) (dir : String) (i : Json)
    (ind : Int) : (save_sample fs db dir i ind).1 = db := by
  unfold save_sample
  split <;> rfl

theorem save_samples_db_unchanged (fs : FS) (db : Store) (dir : String) (ind : Int)
    (r : Store × FS × List String) (h : save_samples fs db dir ind = some r) :
    r.1 = db := by
  unfold save_samples at h
  cases hids : get_entry_ids db with
  | none => rw [hids] at h; simp at h
  | some ids =>
    rw [hids] at h
    simp only [Option.map_some'] at h
    rw [← Option.some.inj h]

/-! ## The claims -/

/-- C1: after a `load_sample` run that completes normally, `entry_exists`
on the loaded id is true; after `remove_entry` of that id on the resulting
store, `entry_exists` is false. -/
theorem c1_load_exists_remove (fs : FS) (db : Store) (f i : String) (keep : Bool)
    (h : (load_sample fs db f i keep).ok = true) :
    entry_exists (load_sample fs db f i keep).db (.str i) = true ∧
    entry_exists (remove_entry (load_sample fs db f i keep).db (.str i)).1
      (.str i) = false := by
  refine ⟨?_, entry_exists_remove_self _ _⟩
  rcases load_sample_cases fs db f i keep with ⟨hfail, _⟩ | ⟨data, hid, _, hcase⟩
  · rw [h] at hfail; exact absurd hfail (by simp)
  · rcases hcase with ⟨hdb, hex, _⟩ | ⟨hdb, _⟩ | ⟨hdb, _, _⟩
    · rw [hdb]; exact hex
    · rw [hdb]; exact entry_exists_append_self db data _ hid
    · rw [hdb]; exact entry_exists_append_self _ data _ hid

/-- C4: `load_sample` with `keep_existing = true` on an id that exists in
the store leaves the store entirely unchanged (the stored entry and all
other entries), whatever the file contains. -/
theorem c4_keep_existing_unchanged (fs : FS) (db : Store) (f i : String)
    (h : entry_exists db (.str i) = true) :
    (load_sample fs db f i true).db = db := by
  rcases load_sample_cases fs db f i true with ⟨_, hdb⟩ | ⟨data, _, _, hcase⟩
  · exact hdb
  · rcases hcase with ⟨hdb, _, _⟩ | ⟨_, hex⟩ | ⟨_, _, hkeep⟩
    · exact hdb
    · rw [h] at hex; exact absurd hex (by simp)
    · exact absurd hkeep (by simp)

/-- C7: `remove_entry` on an id with no matching entry prints the
not-found message and returns with the store unchanged (a total function
of the model: no exception is possible on this path). -/
theorem c7_remove_missing_noop (db : Store) (i : Json)
    (h : entry_exists db i = false) :
    remove_entry db i = (db, ["no data found for ID " ++ pyStr i]) := by
  simp [remove_entry, h]

/-- C8: the invariant "at most one entry per id value" is preserved by
every operation: `truncate`, `remove_entry`, `load_sample` under either
`keep_existing` setting, `load_samples`, `save_sample` and `save_samples`
(the two save operations return the store they were given, unmodified). -/
theorem c8_invariant_preserved (db : Store) (hinv : StoreInv db) (i : Json)
    (fs : FS) (f s dir : String) (keep : Bool) (listing : List String)
    (tr : Bool) (ind : Int) :
    StoreInv (truncate db).1 ∧
    StoreInv (remove_entry db i).1 ∧
    StoreInv (load_sample fs db f s keep).db ∧
    StoreInv (load_samples fs db dir listing tr keep).db ∧
    StoreInv (save_sample fs db dir i ind).1 ∧
    (∀ r, save_samples fs db dir ind = some r → StoreInv r.1) := by
  refine ⟨StoreInv_nil, StoreInv_remove db i hinv,
    StoreInv_load_sample fs db f s keep hinv,
    StoreInv_load_samples fs db dir listing tr keep hinv, ?_, ?_⟩
  · rw [save_sample_db_unchanged]; exact hinv
  · intro r hr
    rw [save_samples_db_unchanged fs db dir ind r hr]
    exact hinv

/-- C10: `remove_entry` deletes every matching entry, so `entry_exists`
is false immediately after it on any store, including stores holding
several entries with the same id; consequently `load_sample` with
`keep_existing = false`, when it completes normally, leaves exactly one
entry with the loaded id. -/
theorem c10_remove_all_then_unique (db0 : Store) (i0 : Json) (fs : FS)
    (db : Store) (f i : String)
    (h : (load_sample fs db f i false).ok = true) :
    entry_exists (remove_entry db0 i0).1 i0 = false ∧
    (db_search (load_sample fs db f i false).db (.str i)).length = 1 := by
  refine ⟨entry_exists_remove_self db0 i0, ?_⟩
  rcases load_sample_cases fs db f i false with ⟨hfail, _⟩ | ⟨data, hid, _, hcase⟩
  · rw [h] at hfail; exact absurd hfail (by simp)
  · rcases hcase with ⟨_, _, hkeep⟩ | ⟨hdb, hex⟩ | ⟨hdb, _, _⟩
    · exact absurd hkeep (by simp)
    · rw [hdb, db_search_append, (entry_exists_false_iff db _).mp hex,
        db_search_single data _ (matches_id_of_jget data _ hid)]
      rfl
    · rw [hdb, db_search_append, db_search_remove_self,
        db_search_single data _ (matches_id_of_jget data _ hid)]
      rfl

/-! ## Order lemmas for the id sort -/

theorem charsLe_cons_iff (a b : Char) (as bs : List Char) :
    charsLe (a :: as) (b :: bs) = true ↔
      (a.toNat < b.toNat ∨ (a.toNat = b.toNat ∧ charsLe as bs = true)) := by
  simp only [charsLe]
  split_ifs with h1 h2
  · simp [h1]
  · constructor
    · intro h; cases h
    · rintro (h | ⟨h, _⟩) <;> omega
  · have h : a.toNat = b.toNat := by omega
    simp [h]

theorem charsLe_total : ∀ (a b : List Char), charsLe a b = true ∨ charsLe b a = true
  | [], _ => Or.inl rfl
  | _ :: _, [] => Or.inr rfl
  | a :: as, b :: bs => by
    rcases Nat.lt_trichotomy a.toNat b.toNat with h | h | h
    · exact Or.inl ((charsLe_cons_iff a b as bs).mpr (Or.inl h))
    · rcases charsLe_total as bs with ih | ih
      · exact Or.inl ((charsLe_cons_iff a b as bs).mpr (Or.inr ⟨h, ih⟩))
      · exact Or.inr ((charsLe_cons_iff b a bs as).mpr (Or.inr ⟨h.symm, ih⟩))
    · exact Or.inr ((charsLe_cons_iff b a bs as).mpr (Or.inl h))

theorem charsLe_trans : ∀ (a b c : List Char),
    charsLe a b = true → charsLe b c = true → charsLe a c = true
  | [], _, _, _, _ => rfl
  | _ :: _, [], _, h, _ => by simp [charsLe] at h
  | _ :: _, _ :: _, [], _, h => by simp [charsLe] at h
  | a :: as, b :: bs, c :: cs, h1, h2 => by
    rw [charsLe_cons_iff] at h1 h2 ⊢
    rcases h1 with h1 | ⟨h1, h1'⟩ <;> rcases h2 with h2 | ⟨h2, h2'⟩
    · exact Or.inl (by omega)
    · exact Or.inl (by omega)
    · exact Or.inl (by omega)
    · exact Or.inr ⟨by omega, charsLe_trans as bs cs h1' h2'⟩

instance : IsTotal Json keyLe := ⟨fun _ _ => charsLe_total _ _⟩

instance : IsTrans Json keyLe := ⟨fun _ _ _ => charsLe_trans _ _ _⟩

theorem sortIds_sorted (l : List Json) : List.Sorted keyLe (sortIds l) :=
  List.sorted_insertionSort keyLe l

theorem sortIds_perm (l : List Json) : (sortIds l).Perm l :=
  List.perm_insertionSort keyLe l

/-! ## Lemmas about the id enumeration -/

theorem collectIds_some (db : Store) (l : List Json) (h : collectIds db = some l) :
    l = db.filterMap (fun e => jget e idKey) ∧ l.length = db.length := by
  induction db generalizing l with
  | nil =>
    simp only [collectIds, Option.some.injEq] at h
    subst h; simp
  | cons e db ih =>
    simp only [collectIds] at h
    cases hj : jget e idKey with
    | none => rw [hj] at h; cases h
    | some i =>
      rw [hj] at h
      cases hc : collectIds db with
      | none => rw [hc] at h; cases h
      | some l0 =>
        rw [hc] at h
        simp only [Option.map_some', Option.some.injEq] at h
        obtain ⟨ih1, ih2⟩ := ih l0 hc
        subst h
        constructor
        · simp [List.filterMap_cons, hj, ih1]
        · simp [List.length_cons, ih2]

theorem collectIds_isSome_iff (db : Store) :
    (collectIds db).isSome = true ↔ ∀ e ∈ db, (jget e idKey).isSome = true := by
  induction db with
  | nil => simp [collectIds]
  | cons e db ih =>
    simp only [collectIds]
    cases hj : jget e idKey with
    | none => simp [hj]
    | some i =>
      cases hc : collectIds db with
      | none => rw [hc] at ih; simpa [hj] using ih
      | some l0 => rw [hc] at ih; simpa [hj] using ih

theorem StoreInv_cons (e : Json) (db : Store) (h : StoreInv (e :: db)) :
    StoreInv db := by
  intro i
  have h2 := h i
  have hstep : (db_search db i).length ≤ (db_search (e :: db) i).length := by
    simp only [db_search, List.filter_cons]
    split
    · simp
    · exact le_refl _
  exact le_trans hstep h2

theorem StoreInv_ids_nodup (db : Store) (h : StoreInv db) :
    (db.filterMap (fun e => jget e idKey)).Nodup := by
  induction db with
  | nil => simp
  | cons e db ih =>
    have hdb := StoreInv_cons e db h
    cases hj : jget e idKey with
    | none => simpa [List.filterMap_cons, hj] using ih hdb
    | some i =>
      simp only [List.filterMap_cons, hj, List.nodup_cons]
      refine ⟨?_, ih hdb⟩
      intro hmem
      obtain ⟨e', he', hj'⟩ := List.mem_filterMap.mp hmem
      have hlen := h i
      have hmem' : e' ∈ db.filter (fun x => matches_id x i) :=
        List.mem_filter.mpr ⟨he', matches_id_of_jget e' i hj'⟩
      have hpos : 0 < (db.filter (fun x => matches_id x i)).length :=
        List.length_pos.mpr (List.ne_nil_of_mem hmem')
      have hsearch : db_search (e :: db) i = e :: db.filter (fun x => matches_id x i) := by
        simp [db_search, List.filter_cons, matches_id_of_jget e i hj]
      rw [hsearch] at hlen
      simp only [List.length_cons] at hlen
      omega

/-- C3 counterexample: on a store holding two entries with the same id
value `"a"` (a state the underlying engine permits — the spec itself calls
duplicate detection "a defensive check, not a hard guarantee"), the id
enumeration returns both copies: its length is 2, while only 1 distinct id
value is present.  The claim's "length equals the number of distinct id
values present" is therefore false of this state. -/
theorem c3_counterexample :
    get_entry_ids
        [Json.obj (.cons "id" (.str "a") .nil), Json.obj (.cons "id" (.str "a") .nil)]
      = some [Json.str "a", Json.str "a"] ∧
    ([Json.str "a", Json.str "a"] : List Json).length = 2 ∧
    distinctIdCount
        [Json.obj (.cons "id" (.str "a") .nil), Json.obj (.cons "id" (.str "a") .nil)]
      = 1 := by
  refine ⟨by decide, rfl, by decide⟩

/-- C3 (amended): when the id enumeration completes, it returns the
stored id values (a permutation of them) in ascending sorted order, and
its length equals the number of entries present; under the store
invariant "at most one entry per id value" that count equals the number
of distinct id values present. -/
theorem c3_list_ids_sorted (db : Store) (ids : List Json)
    (h : get_entry_ids db = some ids) :
    List.Sorted keyLe ids ∧
    ids.Perm (db.filterMap (fun e => jget e idKey)) ∧
    ids.length = db.length ∧
    (StoreInv db → ids.length = distinctIdCount db) := by
  unfold get_entry_ids at h
  cases hc : collectIds db with
  | none => rw [hc] at h; cases h
  | some l =>
    rw [hc] at h
    simp only [Option.map_some', Option.some.injEq] at h
    obtain ⟨hl, hlen⟩ := collectIds_some db l hc
    subst h
    refine ⟨sortIds_sorted l, ?_, ?_, ?_⟩
    · rw [← hl]; exact sortIds_perm l
    · rw [(sortIds_perm l).length_eq, hlen]
    · intro hinv
      rw [(sortIds_perm l).length_eq]
      unfold distinctIdCount
      rw [← hl, List.dedup_eq_self.mpr]
      rw [hl]
      exact StoreInv_ids_nodup db hinv

/-- C9: the id enumeration (`get_entry_ids`, hence `list_ids` and
`save_samples`) completes normally exactly when every entry of the store
has an `id` member; one entry without it makes `e['id']` raise an
uncaught `KeyError` (the `none` outcome of the model). -/
theorem c9_id_key_required (db : Store) (fs : FS) (dir : String) (ind : Int) :
    ((∀ e ∈ db, (jget e idKey).isSome = true) →
      (get_entry_ids db).isSome = true ∧ (list_ids db).isSome = true ∧
      (save_samples fs db dir ind).isSome = true) ∧
    ((∃ e ∈ db, jget e idKey = none) →
      get_entry_ids db = none ∧ list_ids db = none ∧
      save_samples fs db dir ind = none) := by
  constructor
  · intro h
    have h1 : (collectIds db).isSome = true := (collectIds_isSome_iff db).mpr h
    obtain ⟨l, hc⟩ := Option.isSome_iff_exists.mp h1
    have h2 : get_entry_ids db = some (sortIds l) := by
      unfold get_entry_ids; rw [hc]; rfl
    refine ⟨by rw [h2]; rfl, ?_, ?_⟩
    · unfold list_ids; rw [h2]; rfl
    · unfold save_samples; rw [h2]; rfl
  · rintro ⟨e, he, hnone⟩
    have h1 : collectIds db = none := by
      cases hc : collectIds db with
      | none => rfl
      | some l =>
        have : (jget e idKey).isSome = true :=
          (collectIds_isSome_iff db).mp (by rw [hc]; rfl) e he
        rw [hnone] at this; cases this
    have h2 : get_entry_ids db = none := by
      unfold get_entry_ids; rw [h1]; rfl
    refine ⟨h2, ?_, ?_⟩
    · unfold list_ids; rw [h2]; rfl
    · unfold save_samples; rw [h2]; rfl

/-! ## The filename-to-id derivation (C2) -/

theorem json_data_eq : (".json").data = ['.', 'j', 's', 'o', 'n'] := rfl

theorem hasJsonSub_iff_substr : ∀ (s : List Char),
    hasJsonSub s = true ↔ (".json").data <:+: s
  | [] => by
    simp only [hasJsonSub, List.infix_nil]
    constructor
    · intro h; cases h
    · intro h; exact absurd h (by decide)
  | c :: cs => by
    have ih := hasJsonSub_iff_substr cs
    constructor
    · intro h
      unfold hasJsonSub at h
      split at h
      · rename_i x rest heq
        exact ⟨[], rest, by rw [json_data_eq, heq]; rfl⟩
      · rename_i x1 head cs2 hno heq
        injection heq with h1 h2
        subst h1; subst h2
        exact List.infix_cons (ih.mp h)
      · rename_i x heq
        simp at heq
    · intro h
      rcases List.infix_cons_iff.mp h with hpre | hinf
      · obtain ⟨t, ht⟩ := hpre
        rw [← ht, json_data_eq]
        rfl
      · have h2 := ih.mpr hinf
        unfold hasJsonSub
        split
        · rfl
        · rename_i x1 head cs2 hno heq
          injection heq with h1 h2'
          subst h1; subst h2'
          exact h2
        · rename_i x heq
          simp at heq

theorem removeJsonAll_eq_removeOccAll (s0 : List Char) :
    removeJsonAll s0 = removeOccAll (".json").data s0 := by
  suffices H : ∀ n, ∀ s : List Char, s.length ≤ n →
      removeJsonAll s = removeOccAll (".json").data s from H s0.length s0 le_rfl
  intro n
  induction n with
  | zero =>
    intro s hs
    have h0 : s = [] := List.eq_nil_of_length_eq_zero (by omega)
    subst h0
    simp [removeJsonAll, removeOccAll]
  | succ n ih =>
    intro s hs
    cases s with
    | nil => simp [removeJsonAll, removeOccAll]
    | cons c cs =>
      unfold removeJsonAll
      split
      · rename_i x rest heq
        rw [heq, removeOccAll]
        rw [dif_pos ⟨by decide, List.isPrefixOf_iff_prefix.mpr ⟨rest, rfl⟩⟩]
        have hdrop : ('.' :: 'j' :: 's' :: 'o' :: 'n' :: rest).drop ((".json").data.length)
            = rest := rfl
        rw [hdrop]
        have hlen : rest.length ≤ n := by
          have := congrArg List.length heq
          simp at this hs
          omega
        exact ih rest hlen
      · rename_i x1 head cs2 hno heq
        injection heq with h1 h2
        subst h1; subst h2
        rw [removeOccAll]
        rw [dif_neg]
        · have hlen : cs.length ≤ n := by simp at hs; omega
          rw [ih cs hlen]
        · rintro ⟨-, hpre⟩
          obtain ⟨t, ht⟩ := List.isPrefixOf_iff_prefix.mp hpre
          rw [json_data_eq] at ht
          simp only [List.cons_append, List.nil_append] at ht
          injection ht with e1 e2
          exact hno t e1.symm e2.symm
      · rename_i x heq
        simp at heq

/-- C2 counterexample: the file name `a.json.json` contains `.json`, and
`load_samples` loads it — but under the id `"a"` (Python `str.replace`
removes BOTH occurrences), not under the id `"a.json"` that removing only
the first occurrence would give.  The claim's description of the derived
id is therefore false of this run. -/
theorem c2_counterexample :
    (load_samples
        (fun p => if p = "d" ++ pathBackslash ++ "a.json.json" then some "\x7b\x7d" else none)
        [] "d" ["a.json.json"] false false).db
      = [Json.obj (.cons "id" (.str "a") .nil)] ∧
    String.mk (removeJsonFirst ("a.json.json").data) = "a.json" ∧
    Json.obj (.cons "id" (.str "a") .nil) ≠ Json.obj (.cons "id" (.str ("a.json")) .nil) := by
  refine ⟨by decide, by decide, by decide⟩

/-- C2 (amended): `load_samples` processes exactly the file names that
contain the substring `.json` (the scanner agrees with substring
containment), derives the id by removing EVERY occurrence of `.json`
(Python `str.replace` semantics, the generic left-to-right removal), and
passes that id and the file's path to `load_sample`; a name without the
substring is skipped with a warning — the store and the success flag are
those of the remaining files, so it is not an error. -/
theorem c2_load_samples_filenames (f : String) (fs : FS) (db : Store)
    (dir : String) (rest : List String) (keep : Bool) :
    (hasJsonSub f.data = true ↔ (".json").data <:+: f.data) ∧
    removeJsonAll f.data = removeOccAll (".json").data f.data ∧
    (hasJsonSub f.data = true →
      load_samples_go fs dir keep db [f] =
        ⟨(load_sample fs db (dir ++ pathBackslash ++ f) ⟨removeJsonAll f.data⟩ keep).db,
         (load_sample fs db (dir ++ pathBackslash ++ f) ⟨removeJsonAll f.data⟩ keep).msgs,
         (load_sample fs db (dir ++ pathBackslash ++ f) ⟨removeJsonAll f.data⟩ keep).ok⟩) ∧
    (hasJsonSub f.data = false →
      load_samples_go fs dir keep db (f :: rest) =
        ⟨(load_samples_go fs dir keep db rest).db,
         ("warning: " ++ f ++ " has no json extension, skipping")
           :: (load_samples_go fs dir keep db rest).msgs,
         (load_samples_go fs dir keep db rest).ok⟩) := by
  refine ⟨hasJsonSub_iff_substr f.data, removeJsonAll_eq_removeOccAll f.data, ?_, ?_⟩
  · intro h
    simp only [load_samples_go, h, if_true]
    cases hok : (load_sample fs db (dir ++ pathBackslash ++ f)
        ⟨removeJsonAll f.data⟩ keep).ok
    · simp only [hok, Bool.false_eq_true, if_false]
      rw [← hok]
    · simp [hok, load_samples_go]
  · intro h
    simp only [load_samples_go, h, Bool.false_eq_true, if_false]

/-- C6 counterexample: `save_sample` of the entry with id `"a"` into
directory `"d"` writes nothing at `d/a.json` — the file appears at
`d\a.json`, because the source joins paths with a hardcoded backslash
(`f'{samples_dir}\\{i}.json'`), not with `/`. -/
theorem c6_counterexample :
    (save_sample (fun _ => none) [Json.obj (.cons "id" (.str "a") .nil)]
        "d" (.str "a") 0).2.1 ("d/a.json") = none ∧
    (save_sample (fun _ => none) [Json.obj (.cons "id" (.str "a") .nil)]
        "d" (.str "a") 0).2.1 ("d" ++ pathBackslash ++ "a" ++ jsonExt)
      = some (dumpPy (Json.obj (.cons "id" (.str "a") .nil)) 0) ∧
    ("d" ++ pathBackslash ++ "a" ++ jsonExt) ≠ "d/a.json" := by
  refine ⟨by decide, by decide, by decide⟩

/-- C6 (amended): for every directory and id with at least one matching
entry, `save_sample` serializes the first matching entry (with the given
indent) to the path formed as the directory, a literal backslash, and the
id followed by `.json` — that is, `<directory>\<id>.json` — and writes to
no other path. -/
theorem c6_save_path (fs : FS) (db : Store) (dir : String) (i : Json)
    (ind : Int) (e : Json) (es : List Json) (h : get_entries db i = e :: es) :
    (save_sample fs db dir i ind).2.1 (dir ++ pathBackslash ++ pyStr i ++ jsonExt)
      = some (dumpPy e ind) ∧
    (∀ p, p ≠ dir ++ pathBackslash ++ pyStr i ++ jsonExt →
      (save_sample fs db dir i ind).2.1 p = fs p) := by
  unfold save_sample
  rw [h]
  constructor
  · simp [FS.write, save_path]
  · intro p hp
    simp [FS.write, save_path, hp]

/-! ## Round trip, part 1: whitespace and string escapes -/

theorem skipWs_append_ws (a b : List Char) (ha : allWs a) :
    skipWs (a ++ b) = skipWs b := by
  induction a with
  | nil => rfl
  | cons c cs ih =>
    have hc : isWsCh c = true := ha c (List.mem_cons_self c cs)
    simp only [List.cons_append, skipWs, hc, if_true]
    exact ih (fun x hx => ha x (List.mem_cons_of_mem c hx))

theorem WsOk_compact : WsOk compactWs := by
  refine fun d => ⟨?_, ?_, ?_⟩ <;> intro c hc <;> simp [compactWs] at hc <;>
    simp [hc, isWsCh]

theorem WsOk_indent (n : Nat) : WsOk (indentWs n) := by
  refine fun d => ⟨?_, ?_, ?_⟩ <;> intro c hc
  all_goals
    simp only [indentWs] at hc
    rcases List.mem_cons.mp hc with h | h
    · simp [h, isWsCh]
    · rw [List.eq_of_mem_replicate h]; simp [isWsCh]

theorem hexDigVal_hexCh (d : Nat) (h : d < 16) : hexDigVal (hexCh d) = some d := by
  interval_cases d <;> decide

theorem parseHex4_hex4 (n : Nat) (h : n < 65536) (r : List Char) :
    parseHex4 (hex4 n ++ r) = some (n, r) := by
  simp only [hex4, List.cons_append, List.nil_append, parseHex4]
  rw [hexDigVal_hexCh _ (by omega), hexDigVal_hexCh _ (by omega),
    hexDigVal_hexCh _ (by omega), hexDigVal_hexCh _ (by omega)]
  simp only [Option.some.injEq, Prod.mk.injEq]
  constructor
  · omega
  · trivial

theorem char_toNat_valid (c : Char) : c.toNat < 55296 ∨ (57343 < c.toNat ∧ c.toNat < 1114112) := by
  have he : c.toNat = c.val.toNat := rfl
  rcases c.valid with h | ⟨h1, h2⟩
  · left; omega
  · right; omega

theorem parseU_step (fuel : Nat) (r1 : List Char) :
    parseStrBody (fuel+1) ('\\' :: 'u' :: r1) =
    (match parseHex4 r1 with
     | none => none
     | some (n, r2) =>
       if n < 55296 ∨ 57343 < n then consCh (Char.ofNat n) (parseStrBody fuel r2)
       else if n < 56320 then
         (match r2 with
          | '\\' :: 'u' :: r3 =>
            (match parseHex4 r3 with
             | some (m, r4) =>
               if 56320 ≤ m ∧ m ≤ 57343 then
                 consCh (Char.ofNat (65536 + (n - 55296) * 1024 + (m - 56320)))
                   (parseStrBody fuel r4)
               else none
             | none => none)
          | _ => none)
       else none) := rfl

theorem parseStrBody_escChar (c : Char) (fuel : Nat) (t : List Char) :
    parseStrBody (fuel + 1) (escChar c ++ t) = consCh c (parseStrBody fuel t) := by
  by_cases h1 : c = '"'
  · subst h1; rfl
  by_cases h2 : c = '\\'
  · subst h2; rfl
  unfold escChar
  rw [if_neg h1, if_neg h2]
  by_cases h3 : c.toNat = 8
  · rw [if_pos h3]
    have hc : Char.ofNat 8 = c := by rw [← h3, Char.ofNat_toNat]
    simp [parseStrBody]
    rw [hc]
  rw [if_neg h3]
  by_cases h4 : c.toNat = 9
  · rw [if_pos h4]
    have hc : Char.ofNat 9 = c := by rw [← h4, Char.ofNat_toNat]
    simp [parseStrBody]
    rw [hc]
  rw [if_neg h4]
  by_cases h5 : c.toNat = 10
  · rw [if_pos h5]
    have hc : Char.ofNat 10 = c := by rw [← h5, Char.ofNat_toNat]
    simp [parseStrBody]
    rw [hc]
  rw [if_neg h5]
  by_cases h6 : c.toNat = 12
  · rw [if_pos h6]
    have hc : Char.ofNat 12 = c := by rw [← h6, Char.ofNat_toNat]
    simp [parseStrBody]
    rw [hc]
  rw [if_neg h6]
  by_cases h7 : c.toNat = 13
  · rw [if_pos h7]
    have hc : Char.ofNat 13 = c := by rw [← h7, Char.ofNat_toNat]
    simp [parseStrBody]
    rw [hc]
  rw [if_neg h7]
  by_cases h8 : c.toNat < 32
  · rw [if_pos h8]
    have hx := parseHex4_hex4 c.toNat (by omega) t
    simp only [List.cons_append]
    simp [parseStrBody, hx]
    intro hcon
    exact absurd hcon (by omega)
  rw [if_neg h8]
  by_cases h9 : c.toNat < 127
  · rw [if_pos h9]
    have hq : (c = '"') = False := by simp [h1]
    have hb : (c = '\\') = False := by simp [h2]
    simp only [List.cons_append, List.nil_append, parseStrBody, hq, hb,
      if_false]
    rw [if_neg (by omega : ¬ c.toNat < 32)]
  rw [if_neg h9]
  have hval := char_toNat_valid c
  have hbound : c.toNat < 1114112 := by rcases hval with h | ⟨_, h⟩ <;> omega
  by_cases h10 : c.toNat < 65536
  · rw [if_pos h10]
    have hx := parseHex4_hex4 c.toNat (by omega) t
    simp only [List.cons_append]
    simp [parseStrBody, hx]
    intro hcon1 hcon2
    omega
  rw [if_neg h10]
  have hx1 := parseHex4_hex4 (55296 + (c.toNat - 65536) / 1024) (by omega)
    ('\\' :: 'u' :: (hex4 (56320 + (c.toNat - 65536) % 1024) ++ t))
  have hx2 := parseHex4_hex4 (56320 + (c.toNat - 65536) % 1024) (by omega) t
  simp only [List.cons_append, List.append_assoc]
  rw [parseU_step]
  simp only [hx1]
  rw [if_neg (by omega), if_pos (by omega)]
  simp only [hx2]
  rw [if_pos ⟨by omega, by omega⟩]
  have harith : 65536 + ((55296 + (c.toNat - 65536) / 1024) - 55296) * 1024 +
      ((56320 + (c.toNat - 65536) % 1024) - 56320) = c.toNat := by omega
  rw [harith, Char.ofNat_toNat]

theorem parseStrBody_escBody : ∀ (cs : List Char) (fuel : Nat) (t : List Char),
    cs.length + 1 ≤ fuel →
    parseStrBody fuel (escBody cs ++ '"' :: t) = some (cs, t)
  | [], fuel, t, h => by
    cases fuel with
    | zero => omega
    | succ f => rfl
  | c :: cs, fuel, t, h => by
    cases fuel with
    | zero => omega
    | succ f =>
      simp only [escBody, List.append_assoc]
      rw [parseStrBody_escChar c f (escBody cs ++ '"' :: t)]
      rw [parseStrBody_escBody cs f t (by simp at h; omega)]
      rfl

theorem parseStrBody_dumpStr (s : String) (fuel : Nat) (t : List Char)
    (h : s.data.length + 1 ≤ fuel) :
    parseStrBody fuel (escBody s.data ++ '"' :: t) = some (s.data, t) :=
  parseStrBody_escBody s.data fuel t h

/-! ## Round trip, part 2: integer literals -/

theorem digCh_toNat (d : Nat) (h : d < 10) : (Char.ofNat (48 + d)).toNat = 48 + d := by
  interval_cases d <;> decide

theorem digCh_isDigit (d : Nat) (h : d < 10) : (Char.ofNat (48 + d)).isDigit = true := by
  interval_cases d <;> decide

theorem natToChars_ne_nil (m : Nat) : natToChars m ≠ [] := by
  rw [natToChars]
  split <;> simp

theorem natToChars_digits (m : Nat) : ∀ c ∈ natToChars m, c.isDigit = true := by
  induction m using Nat.strong_induction_on with
  | _ m ih =>
    rw [natToChars]
    split
    · next h =>
      intro c hc
      simp only [List.mem_singleton] at hc
      subst hc
      exact digCh_isDigit m h
    · next h =>
      intro c hc
      rcases List.mem_append.mp hc with h1 | h1
      · exact ih (m / 10) (Nat.div_lt_self (by omega) (by omega)) c h1
      · simp only [List.mem_singleton] at h1
        subst h1
        exact digCh_isDigit (m % 10) (Nat.mod_lt m (by omega))

theorem natToChars_head_zero : ∀ m : Nat, (natToChars m).head? = some '0' → m = 0 := by
  intro m
  induction m using Nat.strong_induction_on with
  | _ m ih =>
    rw [natToChars]
    split
    · next h =>
      intro hh
      simp only [List.head?_cons, Option.some.injEq] at hh
      have := congrArg Char.toNat hh
      rw [digCh_toNat m h] at this
      have h0 : ('0').toNat = 48 := by decide
      omega
    · next h =>
      intro hh
      cases hnc : natToChars (m / 10) with
      | nil => exact absurd hnc (natToChars_ne_nil (m / 10))
      | cons c0 t0 =>
        rw [hnc] at hh
        simp only [List.cons_append, List.head?_cons, Option.some.injEq] at hh
        have : m / 10 = 0 := ih (m / 10) (Nat.div_lt_self (by omega) (by omega))
          (by rw [hnc]; simp [hh])
        omega

theorem digitsVal_append_digit (a : List Char) (c : Char) :
    digitsVal (a ++ [c]) = digitsVal a * 10 + (c.toNat - 48) := by
  simp [digitsVal, List.foldl_append]

theorem digitsVal_natToChars (m : Nat) : digitsVal (natToChars m) = m := by
  induction m using Nat.strong_induction_on with
  | _ m ih =>
    rw [natToChars]
    split
    · next h =>
      simp only [digitsVal, List.foldl_cons, List.foldl_nil]
      rw [digCh_toNat m h]
      omega
    · next h =>
      rw [digitsVal_append_digit]
      rw [ih (m / 10) (Nat.div_lt_self (by omega) (by omega))]
      rw [digCh_toNat (m % 10) (Nat.mod_lt m (by omega))]
      omega

theorem spanDigits_exact (ds r : List Char) (hd : ∀ c ∈ ds, c.isDigit = true)
    (hr : r.head?.all (fun c => !c.isDigit) = true) :
    spanDigits (ds ++ r) = (ds, r) := by
  induction ds with
  | nil =>
    cases r with
    | nil => rfl
    | cons c t =>
      simp only [Option.all, List.head?_cons] at hr
      simp only [List.nil_append, spanDigits]
      rw [if_neg (by simp at hr; simp [hr])]
  | cons c cs ih =>
    simp only [List.cons_append, spanDigits]
    rw [if_pos (hd c (List.mem_cons_self c cs))]
    simp only [List.append_eq]
    rw [ih (fun x hx => hd x (List.mem_cons_of_mem c hx))]

theorem restOk_head_facts (r : List Char) (h : restOk r) :
    r.head?.all (fun c => !c.isDigit) = true ∧
    (∀ c t, r = c :: t → ¬(c = '.' ∨ c = 'e' ∨ c = 'E')) := by
  cases r with
  | nil => exact ⟨rfl, by intro c t hct; cases hct⟩
  | cons c t =>
    simp only [restOk] at h
    constructor
    · simp only [List.head?_cons, Option.all]
      rcases h with h | h | h | h
      · subst h; decide
      · subst h; decide
      · subst h; decide
      · simp only [isWsCh, Bool.or_eq_true, decide_eq_true_eq] at h
        rcases h with ((h | h) | h) | h <;> subst h <;> decide
    · intro c' t' hct
      injection hct with e1 e2
      subst e1
      rcases h with h | h | h | h
      · subst h; decide
      · subst h; decide
      · subst h; decide
      · simp only [isWsCh, Bool.or_eq_true, decide_eq_true_eq] at h
        rcases h with ((h | h) | h) | h <;> subst h <;> decide

theorem parseNum_natToChars (neg : Bool) (m : Nat) (hm : neg = true → 0 < m)
    (rest : List Char) (hrest : restOk rest) :
    parseNum neg (natToChars m ++ rest)
      = some (.num (if neg then -(m : Int) else (m : Int)), rest) := by
  obtain ⟨hnd, hnf⟩ := restOk_head_facts rest hrest
  unfold parseNum
  rw [spanDigits_exact (natToChars m) rest (natToChars_digits m) hnd]
  simp only
  rw [if_neg (by simp [natToChars_ne_nil m])]
  rw [if_neg ?hzero]
  case hzero =>
    rintro ⟨hlen, hhead⟩
    have h0 : m = 0 := natToChars_head_zero m hhead
    subst h0
    rw [show natToChars 0 = ['0'] from by simp [natToChars]] at hlen
    simp at hlen
  rw [digitsVal_natToChars]
  cases rest with
  | nil => rfl
  | cons c t =>
    simp only
    rw [if_neg (hnf c t rfl)]

theorem digit_char_facts (k : Nat) (hk : k < 10) :
    isWsCh (Char.ofNat (48 + k)) = false ∧
    Char.ofNat (48 + k) ≠ 'n' ∧ Char.ofNat (48 + k) ≠ 't' ∧
    Char.ofNat (48 + k) ≠ 'f' ∧ Char.ofNat (48 + k) ≠ '"' ∧
    Char.ofNat (48 + k) ≠ '[' ∧ Char.ofNat (48 + k) ≠ '{' ∧
    Char.ofNat (48 + k) ≠ '-' ∧ (Char.ofNat (48 + k)).isDigit = true := by
  interval_cases k <;> refine ⟨by decide, by decide, by decide, by decide,
    by decide, by decide, by decide, by decide, by decide⟩

theorem natToChars_head_struct (m : Nat) :
    ∃ k, k < 10 ∧ ∃ t2, natToChars m = Char.ofNat (48 + k) :: t2 := by
  induction m using Nat.strong_induction_on with
  | _ m ih =>
    rw [natToChars]
    split
    · next h => exact ⟨m, h, [], rfl⟩
    · next h =>
      obtain ⟨k, hk, t2, ht⟩ := ih (m / 10) (Nat.div_lt_self (by omega) (by omega))
      exact ⟨k, hk, t2 ++ [Char.ofNat (48 + m % 10)], by rw [ht]; rfl⟩

/-- Skipping whitespace is idempotent. -/
theorem skipWs_idem : ∀ s : List Char, skipWs (skipWs s) = skipWs s
  | [] => rfl
  | c :: cs => by
    by_cases h : isWsCh c = true
    · simp only [skipWs, h, if_true]
      exact skipWs_idem cs
    · have h2 : isWsCh c = false := by simp at h; exact h
      simp [skipWs, h2]

/-- The parser only sees its input through `skipWs`. -/
theorem parseVal_eq_skipWs (fuel : Nat) (s : List Char) :
    parseVal (fuel + 1) s = parseVal (fuel + 1) (skipWs s) := by
  simp only [parseVal, skipWs_idem]

/-- One dispatch step of `parseVal` on input whose head is not whitespace:
the scanner's case switch, spelled out once for reuse. -/
theorem parseVal_step (fuel : Nat) (c : Char) (r : List Char)
    (hws : isWsCh c = false) :
    parseVal (fuel + 1) (c :: r) =
    (if c = 'n' then
        match r with
        | 'u' :: 'l' :: 'l' :: r2 => some (.null, r2)
        | _ => none
      else if c = 't' then
        match r with
        | 'r' :: 'u' :: 'e' :: r2 => some (.bool true, r2)
        | _ => none
      else if c = 'f' then
        match r with
        | 'a' :: 'l' :: 's' :: 'e' :: r2 => some (.bool false, r2)
        | _ => none
      else if c = '"' then
        match parseStrBody fuel r with
        | some (cs, r1) => some (.str ⟨cs⟩, r1)
        | none => none
      else if c = '[' then parseArrBody fuel r
      else if c = '{' then parseObjBody fuel r
      else if c = '-' then parseNum true r
      else if c.isDigit then parseNum false (c :: r)
      else none) := by
  simp only [parseVal]
  rw [show skipWs (c :: r) = c :: r from by simp [skipWs, hws]]

theorem parseVal_num (n : Int) (fuel : Nat) (pad rest : List Char)
    (hpad : allWs pad) (hrest : restOk rest) :
    parseVal (fuel + 1) (pad ++ intToChars n ++ rest) = some (.num n, rest) := by
  unfold intToChars
  by_cases hn : n < 0
  · rw [if_pos hn]
    have hsk : skipWs (pad ++ ('-' :: natToChars (-n).toNat) ++ rest)
        = '-' :: (natToChars (-n).toNat ++ rest) := by
      rw [List.append_assoc, skipWs_append_ws _ _ hpad]
      rfl
    rw [parseVal_eq_skipWs, hsk, parseVal_step fuel '-' _ (by decide)]
    simp only [show ('-' = 'n') = False from by simp,
      show ('-' = 't') = False from by simp, show ('-' = 'f') = False from by simp,
      show ('-' = '"') = False from by simp, show ('-' = '[') = False from by simp,
      show ('-' = '{') = False from by simp, if_false, if_true, eq_self_iff_true]
    rw [parseNum_natToChars true (-n).toNat (fun _ => by omega) rest hrest]
    simp only [if_true, Option.some.injEq, Prod.mk.injEq]
    refine ⟨?_, trivial⟩
    congr 1
    have h2 : (((-n).toNat : Int)) = -n := Int.toNat_of_nonneg (by omega)
    omega
  · rw [if_neg hn]
    obtain ⟨k, hk, t2, ht⟩ := natToChars_head_struct n.toNat
    obtain ⟨hws, hne1, hne2, hne3, hne4, hne5, hne6, hne7, hdig⟩ :=
      digit_char_facts k hk
    rw [ht]
    have hsk : skipWs (pad ++ (Char.ofNat (48 + k) :: t2) ++ rest)
        = Char.ofNat (48 + k) :: (t2 ++ rest) := by
      rw [List.append_assoc, skipWs_append_ws _ _ hpad]
      simp [skipWs, hws]
    rw [parseVal_eq_skipWs, hsk, parseVal_step fuel _ _ hws]
    rw [if_neg hne1, if_neg hne2, if_neg hne3, if_neg hne4, if_neg hne5,
      if_neg hne6, if_neg hne7, if_pos hdig]
    rw [show (Char.ofNat (48 + k) :: (t2 ++ rest)) = (natToChars n.toNat ++ rest)
        from by rw [ht]; rfl]
    rw [parseNum_natToChars false n.toNat (by simp) rest hrest]
    simp only [if_false, Option.some.injEq, Prod.mk.injEq, Bool.false_eq_true]
    refine ⟨?_, trivial⟩
    congr 1
    omega

/-! ## Round trip, part 3: container dispatch steps -/

theorem parseArrBody_eq_skipWs (fuel : Nat) (s : List Char) :
    parseArrBody (fuel + 1) s = parseArrBody (fuel + 1) (skipWs s) := by
  simp only [parseArrBody, skipWs_idem]

theorem parseItemsRest_eq_skipWs (fuel : Nat) (s : List Char) :
    parseItemsRest (fuel + 1) s = parseItemsRest (fuel + 1) (skipWs s) := by
  simp only [parseItemsRest, skipWs_idem]

theorem parseObjBody_eq_skipWs (fuel : Nat) (s : List Char) :
    parseObjBody (fuel + 1) s = parseObjBody (fuel + 1) (skipWs s) := by
  simp only [parseObjBody, skipWs_idem]

theorem parseMember_eq_skipWs (fuel : Nat) (s : List Char) :
    parseMember (fuel + 1) s = parseMember (fuel + 1) (skipWs s) := by
  simp only [parseMember, skipWs_idem]

theorem parseMembersRest_eq_skipWs (fuel : Nat) (s : List Char) :
    parseMembersRest (fuel + 1) s = parseMembersRest (fuel + 1) (skipWs s) := by
  simp only [parseMembersRest, skipWs_idem]

theorem parseArrBody_step (fuel : Nat) (c : Char) (r : List Char)
    (hws : isWsCh c = false) :
    parseArrBody (fuel + 1) (c :: r) =
    (if c = ']' then some (.arr .nil, r)
      else
        match parseVal fuel (c :: r) with
        | some (v, r1) =>
          match parseItemsRest fuel r1 with
          | some (vs, r2) => some (.arr (.cons v vs), r2)
          | none => none
        | none => none) := by
  simp only [parseArrBody]
  rw [show skipWs (c :: r) = c :: r from by simp [skipWs, hws]]

theorem parseItemsRest_step (fuel : Nat) (c : Char) (r : List Char)
    (hws : isWsCh c = false) :
    parseItemsRest (fuel + 1) (c :: r) =
    (if c = ']' then some (.nil, r)
      else if c = ',' then
        match parseVal fuel r with
        | some (v, r1) =>
          match parseItemsRest fuel r1 with
          | some (vs, r2) => some (.cons v vs, r2)
          | none => none
        | none => none
      else none) := by
  simp only [parseItemsRest]
  rw [show skipWs (c :: r) = c :: r from by simp [skipWs, hws]]

theorem parseObjBody_step (fuel : Nat) (c : Char) (r : List Char)
    (hws : isWsCh c = false) :
    parseObjBody (fuel + 1) (c :: r) =
    (if c = '}' then some (.obj .nil, r)
      else
        match parseMember fuel (c :: r) with
        | some (k, v, r1) =>
          match parseMembersRest fuel r1 with
          | some (ms, r2) => some (.obj (.cons k v ms), r2)
          | none => none
        | none => none) := by
  simp only [parseObjBody]
  rw [show skipWs (c :: r) = c :: r from by simp [skipWs, hws]]

theorem parseMember_step (fuel : Nat) (c : Char) (r : List Char)
    (hws : isWsCh c = false) :
    parseMember (fuel + 1) (c :: r) =
    (if c = '"' then
        match parseStrBody fuel r with
        | some (ks, r1) =>
          match skipWs r1 with
          | [] => none
          | c2 :: r2 =>
            if c2 = ':' then
              match parseVal fuel r2 with
              | some (v, r3) => some (⟨ks⟩, v, r3)
              | none => none
            else none
        | none => none
      else none) := by
  simp only [parseMember]
  rw [show skipWs (c :: r) = c :: r from by simp [skipWs, hws]]

theorem parseMembersRest_step (fuel : Nat) (c : Char) (r : List Char)
    (hws : isWsCh c = false) :
    parseMembersRest (fuel + 1) (c :: r) =
    (if c = '}' then some (.nil, r)
      else if c = ',' then
        match parseMember fuel r with
        | some (k, v, r1) =>
          match parseMembersRest fuel r1 with
          | some (ms, r2) => some (.cons k v ms, r2)
          | none => none
        | none => none
      else none) := by
  simp only [parseMembersRest]
  rw [show skipWs (c :: r) = c :: r from by simp [skipWs, hws]]

/-- Extra classification of digit characters, for serialization heads. -/
theorem digit_char_facts2 (k : Nat) (hk : k < 10) :
    Char.ofNat (48 + k) ≠ ']' ∧ Char.ofNat (48 + k) ≠ '}' ∧
    Char.ofNat (48 + k) ≠ ',' := by
  interval_cases k <;> refine ⟨by decide, by decide, by decide⟩

/-- A serialized value begins with a non-whitespace character that is not
a closing bracket or a comma. -/
theorem dumpV_head (p : WsParams) (v : Json) (d : Nat) :
    ∃ c t, dumpV p v d = c :: t ∧ isWsCh c = false ∧ c ≠ ']' ∧ c ≠ '}' ∧
      c ≠ ',' := by
  cases v with
  | null => exact ⟨'n', _, rfl, by decide, by decide, by decide, by decide⟩
  | bool b =>
    cases b with
    | true => exact ⟨'t', _, rfl, by decide, by decide, by decide, by decide⟩
    | false => exact ⟨'f', _, rfl, by decide, by decide, by decide, by decide⟩
  | num n =>
    rw [show dumpV p (.num n) d = intToChars n from rfl]
    unfold intToChars
    by_cases hn : n < 0
    · rw [if_pos hn]
      exact ⟨'-', _, rfl, by decide, by decide, by decide, by decide⟩
    · rw [if_neg hn]
      obtain ⟨k, hk, t2, ht⟩ := natToChars_head_struct n.toNat
      obtain ⟨hws, _, _, _, _, _, _, _, _⟩ := digit_char_facts k hk
      obtain ⟨hb1, hb2, hb3⟩ := digit_char_facts2 k hk
      exact ⟨Char.ofNat (48 + k), t2, ht, hws, hb1, hb2, hb3⟩
  | str s => exact ⟨'"', _, rfl, by decide, by decide, by decide, by decide⟩
  | arr xs =>
    cases xs with
    | nil => exact ⟨'[', _, rfl, by decide, by decide, by decide, by decide⟩
    | cons x xs => exact ⟨'[', _, rfl, by decide, by decide, by decide, by decide⟩
  | obj kvs =>
    cases kvs with
    | nil => exact ⟨'{', _, rfl, by decide, by decide, by decide, by decide⟩
    | cons k v kvs =>
      exact ⟨'{', _, rfl, by decide, by decide, by decide, by decide⟩

/-- What follows an item inside an array is always a legal value
terminator: a comma, a closing bracket, or whitespace. -/
theorem restOk_itemsRest (p : WsParams) (hp : WsOk p) (xs : JsonItems) (d : Nat)
    (rest : List Char) : restOk (dumpItemsRest p xs d ++ rest) := by
  cases xs with
  | nil =>
    simp only [dumpItemsRest]
    cases hc : p.cls d with
    | nil => simp [restOk]
    | cons w ws =>
      have hw : isWsCh w = true := (hp d).2.2 w (by rw [hc]; exact List.mem_cons_self w ws)
      simp [restOk, hw]
  | cons y ys => simp [dumpItemsRest, restOk]

/-- Likewise inside an object. -/
theorem restOk_membersRest (p : WsParams) (hp : WsOk p) (ms : JsonMembers) (d : Nat)
    (rest : List Char) : restOk (dumpMembersRest p ms d ++ rest) := by
  cases ms with
  | nil =>
    simp only [dumpMembersRest]
    cases hc : p.cls d with
    | nil => simp [restOk]
    | cons w ws =>
      have hw : isWsCh w = true := (hp d).2.2 w (by rw [hc]; exact List.mem_cons_self w ws)
      simp [restOk, hw]
  | cons k v ms => simp [dumpMembersRest, restOk]

/-! ## Round trip, part 4: values parse back from their serialization -/

theorem allWs_nil : allWs [] := fun c hc => absurd hc (List.not_mem_nil c)

theorem allWs_space : allWs [' '] := by
  intro c hc
  simp only [List.mem_singleton] at hc
  subst hc
  rfl

mutual
theorem parse_dumpV (p : WsParams) (hp : WsOk p) :
    ∀ (v : Json) (fuel d : Nat) (pad rest : List Char), allWs pad → restOk rest →
      needVal v ≤ fuel → parseVal fuel (pad ++ dumpV p v d ++ rest) = some (v, rest)
  | .null, fuel, d, pad, rest => by
    intro hpad hrest hneed
    simp only [needVal] at hneed
    obtain ⟨f, rfl⟩ : ∃ f, fuel = f + 1 := ⟨fuel - 1, by omega⟩
    have hsk : skipWs (pad ++ dumpV p .null d ++ rest)
        = 'n' :: ('u' :: 'l' :: 'l' :: rest) := by
      rw [List.append_assoc, skipWs_append_ws _ _ hpad]
      rfl
    rw [parseVal_eq_skipWs, hsk, parseVal_step f 'n' _ (by decide)]
    simp
  | .bool true, fuel, d, pad, rest => by
    intro hpad hrest hneed
    simp only [needVal] at hneed
    obtain ⟨f, rfl⟩ : ∃ f, fuel = f + 1 := ⟨fuel - 1, by omega⟩
    have hsk : skipWs (pad ++ dumpV p (.bool true) d ++ rest)
        = 't' :: ('r' :: 'u' :: 'e' :: rest) := by
      rw [List.append_assoc, skipWs_append_ws _ _ hpad]
      rfl
    rw [parseVal_eq_skipWs, hsk, parseVal_step f 't' _ (by decide)]
    simp
  | .bool false, fuel, d, pad, rest => by
    intro hpad hrest hneed
    simp only [needVal] at hneed
    obtain ⟨f, rfl⟩ : ∃ f, fuel = f + 1 := ⟨fuel - 1, by omega⟩
    have hsk : skipWs (pad ++ dumpV p (.bool false) d ++ rest)
        = 'f' :: ('a' :: 'l' :: 's' :: 'e' :: rest) := by
      rw [List.append_assoc, skipWs_append_ws _ _ hpad]
      rfl
    rw [parseVal_eq_skipWs, hsk, parseVal_step f 'f' _ (by decide)]
    simp
  | .num n, fuel, d, pad, rest => by
    intro hpad hrest hneed
    simp only [needVal] at hneed
    obtain ⟨f, rfl⟩ : ∃ f, fuel = f + 1 := ⟨fuel - 1, by omega⟩
    rw [show dumpV p (.num n) d = intToChars n from rfl]
    exact parseVal_num n f pad rest hpad hrest
  | .str s, fuel, d, pad, rest => by
    intro hpad hrest hneed
    simp only [needVal] at hneed
    obtain ⟨f, rfl⟩ : ∃ f, fuel = f + 1 := ⟨fuel - 1, by omega⟩
    have hsk : skipWs (pad ++ dumpV p (.str s) d ++ rest)
        = '"' :: (escBody s.data ++ ('"' :: rest)) := by
      rw [List.append_assoc, skipWs_append_ws _ _ hpad]
      rw [show dumpV p (.str s) d = '"' :: escBody s.data ++ ['"'] from rfl]
      simp only [List.cons_append, List.append_assoc, List.nil_append]
      rfl
    rw [parseVal_eq_skipWs, hsk, parseVal_step f '"' _ (by decide)]
    rw [parseStrBody_escBody s.data f rest (by omega)]
    simp
  | .arr .nil, fuel, d, pad, rest => by
    intro hpad hrest hneed
    simp only [needVal] at hneed
    obtain ⟨f, rfl⟩ : ∃ f, fuel = f + 1 := ⟨fuel - 1, by omega⟩
    obtain ⟨f2, rfl⟩ : ∃ f2, f = f2 + 1 := ⟨f - 1, by omega⟩
    have hsk : skipWs (pad ++ dumpV p (.arr .nil) d ++ rest)
        = '[' :: (']' :: rest) := by
      rw [List.append_assoc, skipWs_append_ws _ _ hpad]
      rfl
    rw [parseVal_eq_skipWs, hsk, parseVal_step (f2 + 1) '[' _ (by decide)]
    simp only [show ('[' = 'n') = False from by decide,
      show ('[' = 't') = False from by decide,
      show ('[' = 'f') = False from by decide,
      show ('[' = '"') = False from by decide, if_false, if_true,
      eq_self_iff_true]
    rw [parseArrBody_step f2 ']' rest (by decide)]
    simp
  | .arr (.cons x xs), fuel, d, pad, rest => by
    intro hpad hrest hneed
    simp only [needVal] at hneed
    obtain ⟨f, rfl⟩ : ∃ f, fuel = f + 1 := ⟨fuel - 1, by omega⟩
    obtain ⟨f2, rfl⟩ : ∃ f2, f = f2 + 1 := ⟨f - 1, by omega⟩
    obtain ⟨c0, t0, hd0, hws0, hne0, _, _⟩ := dumpV_head p x (d + 1)
    have hsk : skipWs (pad ++ dumpV p (.arr (.cons x xs)) d ++ rest)
        = '[' :: (p.opn d ++ (dumpV p x (d + 1) ++ (dumpItemsRest p xs d ++ rest))) := by
      rw [List.append_assoc, skipWs_append_ws _ _ hpad]
      simp only [dumpV, List.cons_append, List.append_assoc]
      rfl
    rw [parseVal_eq_skipWs, hsk, parseVal_step (f2 + 1) '[' _ (by decide)]
    simp only [show ('[' = 'n') = False from by decide,
      show ('[' = 't') = False from by decide,
      show ('[' = 'f') = False from by decide,
      show ('[' = '"') = False from by decide, if_false, if_true,
      eq_self_iff_true]
    have hsk2 : skipWs (p.opn d ++ (dumpV p x (d + 1) ++ (dumpItemsRest p xs d ++ rest)))
        = c0 :: (t0 ++ (dumpItemsRest p xs d ++ rest)) := by
      rw [skipWs_append_ws _ _ (hp d).1, hd0, List.cons_append]
      simp [skipWs, hws0]
    rw [parseArrBody_eq_skipWs, hsk2, parseArrBody_step f2 c0 _ hws0]
    rw [if_neg hne0]
    rw [show (c0 :: (t0 ++ (dumpItemsRest p xs d ++ rest)))
        = [] ++ dumpV p x (d + 1) ++ (dumpItemsRest p xs d ++ rest) from by
      rw [hd0]; simp]
    rw [parse_dumpV p hp x f2 (d + 1) [] (dumpItemsRest p xs d ++ rest)
      allWs_nil (restOk_itemsRest p hp xs d rest) (by omega)]
    simp only [parse_dumpItemsRest p hp xs f2 d rest hrest (by omega)]
  | .obj .nil, fuel, d, pad, rest => by
    intro hpad hrest hneed
    simp only [needVal] at hneed
    obtain ⟨f, rfl⟩ : ∃ f, fuel = f + 1 := ⟨fuel - 1, by omega⟩
    obtain ⟨f2, rfl⟩ : ∃ f2, f = f2 + 1 := ⟨f - 1, by omega⟩
    have hsk : skipWs (pad ++ dumpV p (.obj .nil) d ++ rest)
        = '{' :: ('}' :: rest) := by
      rw [List.append_assoc, skipWs_append_ws _ _ hpad]
      rfl
    rw [parseVal_eq_skipWs, hsk, parseVal_step (f2 + 1) '{' _ (by decide)]
    simp only [show ('{' = 'n') = False from by decide,
      show ('{' = 't') = False from by decide,
      show ('{' = 'f') = False from by decide,
      show ('{' = '"') = False from by decide,
      show ('{' = '[') = False from by decide, if_false, if_true,
      eq_self_iff_true]
    rw [parseObjBody_step f2 '}' rest (by decide)]
    simp
  | .obj (.cons k v kvs), fuel, d, pad, rest => by
    intro hpad hrest hneed
    simp only [needVal, needMember] at hneed
    obtain ⟨f, rfl⟩ : ∃ f, fuel = f + 1 := ⟨fuel - 1, by omega⟩
    obtain ⟨f2, rfl⟩ : ∃ f2, f = f2 + 1 := ⟨f - 1, by omega⟩
    obtain ⟨f3, rfl⟩ : ∃ f3, f2 = f3 + 1 := ⟨f2 - 1, by omega⟩
    have hsk : skipWs (pad ++ dumpV p (.obj (.cons k v kvs)) d ++ rest)
        = '{' :: (p.opn d ++ (dumpStr k ++ (':' :: (' ' :: (dumpV p v (d + 1) ++
            (dumpMembersRest p kvs d ++ rest)))))) := by
      rw [List.append_assoc, skipWs_append_ws _ _ hpad]
      simp only [dumpV, List.cons_append, List.append_assoc]
      rfl
    rw [parseVal_eq_skipWs, hsk, parseVal_step (f3 + 2) '{' _ (by decide)]
    simp only [show ('{' = 'n') = False from by decide,
      show ('{' = 't') = False from by decide,
      show ('{' = 'f') = False from by decide,
      show ('{' = '"') = False from by decide,
      show ('{' = '[') = False from by decide, if_false, if_true,
      eq_self_iff_true]
    have hsk2 : skipWs (p.opn d ++ (dumpStr k ++ (':' :: (' ' :: (dumpV p v (d + 1) ++
        (dumpMembersRest p kvs d ++ rest))))))
        = '"' :: (escBody k.data ++ ('"' :: (':' :: (' ' :: (dumpV p v (d + 1) ++
            (dumpMembersRest p kvs d ++ rest)))))) := by
      rw [skipWs_append_ws _ _ (hp d).1]
      rw [show dumpStr k = '"' :: escBody k.data ++ ['"'] from rfl]
      simp only [List.cons_append, List.append_assoc, List.nil_append]
      rfl
    rw [parseObjBody_eq_skipWs, hsk2, parseObjBody_step (f3 + 1) '"' _ (by decide)]
    rw [if_neg (by decide : ¬('"' = '}'))]
    rw [parseMember_step f3 '"' _ (by decide)]
    simp only [eq_self_iff_true, if_true]
    rw [parseStrBody_escBody k.data f3 (':' :: (' ' :: (dumpV p v (d + 1) ++
      (dumpMembersRest p kvs d ++ rest)))) (by omega)]
    simp only [skipWs, show isWsCh ':' = false from rfl, Bool.false_eq_true,
      if_false, eq_self_iff_true, if_true,
      show (' ' :: (dumpV p v (d + 1) ++ (dumpMembersRest p kvs d ++ rest)))
          = [' '] ++ dumpV p v (d + 1) ++ (dumpMembersRest p kvs d ++ rest) from by simp,
      parse_dumpV p hp v f3 (d + 1) [' '] (dumpMembersRest p kvs d ++ rest)
        allWs_space (restOk_membersRest p hp kvs d rest) (by omega),
      parse_dumpMembersRest p hp kvs (f3 + 1) d rest hrest (by omega)]
theorem parse_dumpItemsRest (p : WsParams) (hp : WsOk p) :
    ∀ (xs : JsonItems) (fuel d : Nat) (rest : List Char), restOk rest →
      needItemsRest xs ≤ fuel →
      parseItemsRest fuel (dumpItemsRest p xs d ++ rest) = some (xs, rest)
  | .nil, fuel, d, rest => by
    intro hrest hneed
    simp only [needItemsRest] at hneed
    obtain ⟨f, rfl⟩ : ∃ f, fuel = f + 1 := ⟨fuel - 1, by omega⟩
    have hsk : skipWs (dumpItemsRest p .nil d ++ rest) = ']' :: rest := by
      rw [show dumpItemsRest p .nil d = p.cls d ++ [']'] from rfl]
      rw [List.append_assoc, skipWs_append_ws _ _ (hp d).2.2]
      rfl
    rw [parseItemsRest_eq_skipWs, hsk, parseItemsRest_step f ']' rest (by decide)]
    simp
  | .cons y ys, fuel, d, rest => by
    intro hrest hneed
    simp only [needItemsRest] at hneed
    obtain ⟨f, rfl⟩ : ∃ f, fuel = f + 1 := ⟨fuel - 1, by omega⟩
    have hsk : skipWs (dumpItemsRest p (.cons y ys) d ++ rest)
        = ',' :: (p.sep d ++ (dumpV p y (d + 1) ++ (dumpItemsRest p ys d ++ rest))) := by
      simp only [dumpItemsRest, List.cons_append, List.append_assoc]
      rfl
    rw [parseItemsRest_eq_skipWs, hsk, parseItemsRest_step f ',' _ (by decide)]
    rw [if_neg (by decide : ¬(',' = ']'))]
    simp only [eq_self_iff_true, if_true]
    rw [show (p.sep d ++ (dumpV p y (d + 1) ++ (dumpItemsRest p ys d ++ rest)))
        = p.sep d ++ dumpV p y (d + 1) ++ (dumpItemsRest p ys d ++ rest) from by
      simp [List.append_assoc]]
    rw [parse_dumpV p hp y f (d + 1) (p.sep d) (dumpItemsRest p ys d ++ rest)
      (hp d).2.1 (restOk_itemsRest p hp ys d rest) (by omega)]
    simp only [parse_dumpItemsRest p hp ys f d rest hrest (by omega)]
theorem parse_dumpMembersRest (p : WsParams) (hp : WsOk p) :
    ∀ (ms : JsonMembers) (fuel d : Nat) (rest : List Char), restOk rest →
      needMembersRest ms ≤ fuel →
      parseMembersRest fuel (dumpMembersRest p ms d ++ rest) = some (ms, rest)
  | .nil, fuel, d, rest => by
    intro hrest hneed
    simp only [needMembersRest] at hneed
    obtain ⟨f, rfl⟩ : ∃ f, fuel = f + 1 := ⟨fuel - 1, by omega⟩
    have hsk : skipWs (dumpMembersRest p .nil d ++ rest) = '}' :: rest := by
      rw [show dumpMembersRest p .nil d = p.cls d ++ ['}'] from rfl]
      rw [List.append_assoc, skipWs_append_ws _ _ (hp d).2.2]
      rfl
    rw [parseMembersRest_eq_skipWs, hsk, parseMembersRest_step f '}' rest (by decide)]
    simp
  | .cons k v ms, fuel, d, rest => by
    intro hrest hneed
    simp only [needMembersRest, needMember] at hneed
    obtain ⟨f, rfl⟩ : ∃ f, fuel = f + 1 := ⟨fuel - 1, by omega⟩
    obtain ⟨f3, rfl⟩ : ∃ f3, f = f3 + 1 := ⟨f - 1, by omega⟩
    have hsk : skipWs (dumpMembersRest p (.cons k v ms) d ++ rest)
        = ',' :: (p.sep d ++ (dumpStr k ++ (':' :: (' ' :: (dumpV p v (d + 1) ++
            (dumpMembersRest p ms d ++ rest)))))) := by
      simp only [dumpMembersRest, List.cons_append, List.append_assoc]
      rfl
    rw [parseMembersRest_eq_skipWs, hsk, parseMembersRest_step (f3 + 1) ',' _ (by decide)]
    rw [if_neg (by decide : ¬(',' = '}'))]
    simp only [eq_self_iff_true, if_true]
    have hsk2 : skipWs (p.sep d ++ (dumpStr k ++ (':' :: (' ' :: (dumpV p v (d + 1) ++
        (dumpMembersRest p ms d ++ rest))))))
        = '"' :: (escBody k.data ++ ('"' :: (':' :: (' ' :: (dumpV p v (d + 1) ++
            (dumpMembersRest p ms d ++ rest)))))) := by
      rw [skipWs_append_ws _ _ (hp d).2.1]
      rw [show dumpStr k = '"' :: escBody k.data ++ ['"'] from rfl]
      simp only [List.cons_append, List.append_assoc, List.nil_append]
      rfl
    rw [parseMember_eq_skipWs, hsk2, parseMember_step f3 '"' _ (by decide)]
    simp only [eq_self_iff_true, if_true]
    rw [parseStrBody_escBody k.data f3 (':' :: (' ' :: (dumpV p v (d + 1) ++
      (dumpMembersRest p ms d ++ rest)))) (by omega)]
    simp only [skipWs, show isWsCh ':' = false from rfl, Bool.false_eq_true,
      if_false, eq_self_iff_true, if_true,
      show (' ' :: (dumpV p v (d + 1) ++ (dumpMembersRest p ms d ++ rest)))
          = [' '] ++ dumpV p v (d + 1) ++ (dumpMembersRest p ms d ++ rest) from by simp,
      parse_dumpV p hp v f3 (d + 1) [' '] (dumpMembersRest p ms d ++ rest)
        allWs_space (restOk_membersRest p hp ms d rest) (by omega),
      parse_dumpMembersRest p hp ms (f3 + 1) d rest hrest (by omega)]
end

/-! ## Round trip, part 5: the fuel budget fits in the serialized length -/

theorem escChar_length_pos (c : Char) : 1 ≤ (escChar c).length := by
  unfold escChar
  repeat' split
  all_goals simp [hex4]

theorem escBody_length : ∀ cs : List Char, cs.length ≤ (escBody cs).length
  | [] => by simp [escBody]
  | c :: cs => by
    simp only [escBody, List.length_append, List.length_cons]
    have h1 := escChar_length_pos c
    have h2 := escBody_length cs
    omega

theorem intToChars_length_pos (n : Int) : 1 ≤ (intToChars n).length := by
  unfold intToChars
  split
  · simp
  · have h := natToChars_ne_nil n.toNat
    cases hn : natToChars n.toNat with
    | nil => exact absurd hn h
    | cons c cs => simp

theorem dumpV_length_pos (p : WsParams) (v : Json) (d : Nat) :
    1 ≤ (dumpV p v d).length := by
  obtain ⟨c0, t0, hd0, _, _, _, _⟩ := dumpV_head p v d
  simp [hd0]

theorem dumpItemsRest_length_pos (p : WsParams) (xs : JsonItems) (d : Nat) :
    1 ≤ (dumpItemsRest p xs d).length := by
  cases xs <;> simp [dumpItemsRest]

theorem dumpMembersRest_length_pos (p : WsParams) (ms : JsonMembers) (d : Nat) :
    1 ≤ (dumpMembersRest p ms d).length := by
  cases ms <;> simp [dumpMembersRest]

mutual
theorem needVal_le_dump (p : WsParams) :
    ∀ (v : Json) (d : Nat), needVal v ≤ (dumpV p v d).length
  | .null, d => by simp [needVal, dumpV]
  | .bool b, d => by cases b <;> simp [needVal, dumpV]
  | .num n, d => by
    simp only [needVal, dumpV]
    exact intToChars_length_pos n
  | .str s, d => by
    simp only [needVal, dumpV, dumpStr, List.cons_append, List.length_cons,
      List.length_append, List.length_singleton]
    have h := escBody_length s.data
    omega
  | .arr .nil, d => by simp [needVal, dumpV]
  | .arr (.cons x xs), d => by
    simp only [needVal, dumpV, List.length_cons, List.length_append]
    have h1 := needVal_le_dump p x (d + 1)
    have h2 := needItemsRest_le_dump p xs d
    have h3 := dumpItemsRest_length_pos p xs d
    have h0 := dumpV_length_pos p x (d + 1)
    omega
  | .obj .nil, d => by simp [needVal, dumpV]
  | .obj (.cons k v kvs), d => by
    simp only [needVal, needMember, dumpV, dumpStr, List.cons_append,
      List.length_cons, List.length_append, List.length_singleton]
    have hk := escBody_length k.data
    have h1 := needVal_le_dump p v (d + 1)
    have h2 := needMembersRest_le_dump p kvs d
    have h3 := dumpMembersRest_length_pos p kvs d
    omega
theorem needItemsRest_le_dump (p : WsParams) :
    ∀ (xs : JsonItems) (d : Nat), needItemsRest xs ≤ (dumpItemsRest p xs d).length
  | .nil, d => by simp [needItemsRest, dumpItemsRest]
  | .cons x xs, d => by
    simp only [needItemsRest, dumpItemsRest, List.cons_append, List.length_cons,
      List.length_append]
    have h1 := needVal_le_dump p x (d + 1)
    have h2 := needItemsRest_le_dump p xs d
    omega
theorem needMembersRest_le_dump (p : WsParams) :
    ∀ (ms : JsonMembers) (d : Nat), needMembersRest ms ≤ (dumpMembersRest p ms d).length
  | .nil, d => by simp [needMembersRest, dumpMembersRest]
  | .cons k v ms, d => by
    simp only [needMembersRest, needMember, dumpMembersRest, dumpStr,
      List.cons_append, List.length_cons, List.length_append,
      List.length_singleton]
    have hk := escBody_length k.data
    have h1 := needVal_le_dump p v (d + 1)
    have h2 := needMembersRest_le_dump p ms d
    omega
end

/-- `json.load` inverts `json.dump` for any legal whitespace schedule. -/
theorem json_load_dumpV (p : WsParams) (hp : WsOk p) (v : Json) :
    json_load ⟨dumpV p v 0⟩ = some v := by
  unfold json_load
  have hfuel : needVal v ≤ (String.mk (dumpV p v 0)).data.length + 1 := by
    have := needVal_le_dump p v 0
    simp only [String.data]
    omega
  have hpar := parse_dumpV p hp v ((String.mk (dumpV p v 0)).data.length + 1) 0
    [] [] allWs_nil (by simp [restOk]) hfuel
  simp only [List.nil_append, List.append_nil] at hpar
  simp only [String.data] at hpar ⊢
  rw [hpar]
  rfl

/-- The file content written by `save_sample` parses back to the entry,
whatever indent was requested. -/
theorem json_load_dumpPy (e : Json) (ind : Int) :
    json_load (dumpPy e ind) = some e := by
  unfold dumpPy
  split
  · exact json_load_dumpV (indentWs ind.toNat) (WsOk_indent ind.toNat) e
  · exact json_load_dumpV compactWs WsOk_compact e

/-! ## C5: the save/load round trip -/

theorem setKey_of_lookup : ∀ (kvs : JsonMembers) (k : String) (v : Json),
    kvs.lookup k = some v → kvs.setKey k v = kvs
  | .nil, k, v => by simp [JsonMembers.lookup]
  | .cons k' w rest, k, v => by
    intro h
    by_cases hk : k' = k
    · subst hk
      simp [JsonMembers.lookup] at h
      simp [JsonMembers.setKey, h]
    · simp only [JsonMembers.lookup, if_neg hk] at h
      simp [JsonMembers.setKey, hk, setKey_of_lookup rest k v h]

theorem jset_of_jget (e : Json) (k : String) (v : Json)
    (h : jget e k = some v) : jset e k v = some e := by
  cases e <;> simp [jget] at h
  case obj kvs => simp [jset, setKey_of_lookup kvs k v h]

/-- C5: an entry present in the store under a string id, written out by
`save_sample` with any indent setting, parses back from the written file
and `load_sample` inserts exactly the original entry: loading the file
into an empty store yields a store holding precisely that entry, for
either `keep_existing` setting. -/
theorem c5_roundtrip (fs : FS) (db : Store) (dir s : String) (ind : Int)
    (keep : Bool) (e : Json) (es : List Json)
    (h : get_entries db (.str s) = e :: es) :
    load_sample (save_sample fs db dir (.str s) ind).2.1 []
      (save_path dir (.str s)) s keep = ⟨[e], [s ++ " inserted"], true⟩ := by
  have hmem : e ∈ db_search db (.str s) := by
    have h' : db_search db (.str s) = e :: es := h
    rw [h']
    exact List.mem_cons_self e es
  have he : matches_id e (.str s) = true := (List.mem_filter.mp hmem).2
  have hid : jget e idKey = some (.str s) := by
    simp only [matches_id, beq_iff_eq] at he
    exact he
  have hfs : (save_sample fs db dir (.str s) ind).2.1 =
      fs.write (save_path dir (.str s)) (dumpPy e ind) := by
    simp [save_sample, h]
  rw [hfs]
  simp only [load_sample,
    show (FS.write fs (save_path dir (.str s)) (dumpPy e ind))
        (save_path dir (.str s)) = some (dumpPy e ind) from by simp [FS.write],
    json_load_dumpPy e ind, jset_of_jget e idKey (.str s) hid]
  cases keep <;> simp [entry_exists, db_search, List.filter]

theorem c5_roundtrip_witness :
    load_sample (save_sample (fun _ => none)
        [Json.obj (.cons idKey (.str "a") .nil)] "d" (.str "a") 0).2.1 []
      (save_path "d" (.str "a")) "a" true
      = ⟨[Json.obj (.cons idKey (.str "a") .nil)], ["a" ++ " inserted"], true⟩ :=
  c5_roundtrip (fun _ => none) [Json.obj (.cons idKey (.str "a") .nil)]
    "d" "a" 0 true (Json.obj (.cons idKey (.str "a") .nil)) [] (by decide)

/-! ## Concrete instances of the claims with hypotheses -/

theorem c1_load_exists_remove_witness :
    entry_exists (load_sample (fun p => if p = "f" then some "\x7b\x7d" else none)
        [] "f" "a" true).db (.str "a") = true ∧
    entry_exists (remove_entry (load_sample
        (fun p => if p = "f" then some "\x7b\x7d" else none)
        [] "f" "a" true).db (.str "a")).1 (.str "a") = false :=
  c1_load_exists_remove (fun p => if p = "f" then some "\x7b\x7d" else none)
    [] "f" "a" true (by decide)

theorem c4_keep_existing_unchanged_witness :
    (load_sample (fun _ => none) [Json.obj (.cons idKey (.str "a") .nil)]
        "f" "a" true).db = [Json.obj (.cons idKey (.str "a") .nil)] :=
  c4_keep_existing_unchanged (fun _ => none)
    [Json.obj (.cons idKey (.str "a") .nil)] "f" "a" (by decide)

theorem c7_remove_missing_noop_witness :
    remove_entry [] (.str "z")
      = ([], ["no data found for ID " ++ pyStr (.str "z")]) :=
  c7_remove_missing_noop [] (.str "z") (by decide)

theorem c8_invariant_preserved_witness :
    StoreInv (truncate []).1 ∧
    StoreInv (remove_entry [] (.str "a")).1 ∧
    StoreInv (load_sample (fun _ => none) [] "f" "s" true).db ∧
    StoreInv (load_samples (fun _ => none) [] "d" [] false true).db ∧
    StoreInv (save_sample (fun _ => none) [] "d" (.str "a") 0).1 ∧
    (∀ r, save_samples (fun _ => none) [] "d" 0 = some r → StoreInv r.1) :=
  c8_invariant_preserved [] StoreInv_nil (.str "a") (fun _ => none)
    "f" "s" "d" true [] false 0

theorem c10_remove_all_then_unique_witness :
    entry_exists (remove_entry [Json.obj (.cons idKey (.str "b") .nil)]
        (.str "b")).1 (.str "b") = false ∧
    (db_search (load_sample (fun p => if p = "f" then some "\x7b\x7d" else none)
        [] "f" "a" false).db (.str "a")).length = 1 :=
  c10_remove_all_then_unique [Json.obj (.cons idKey (.str "b") .nil)] (.str "b")
    (fun p => if p = "f" then some "\x7b\x7d" else none) [] "f" "a" (by decide)

theorem c3_list_ids_sorted_witness :
    List.Sorted keyLe [Json.str "a"] ∧
    List.Perm [Json.str "a"]
      (List.filterMap (fun e => jget e idKey)
        [Json.obj (.cons idKey (.str "a") .nil)]) ∧
    ([Json.str "a"] : List Json).length
      = ([Json.obj (.cons idKey (.str "a") .nil)] : Store).length ∧
    (StoreInv [Json.obj (.cons idKey (.str "a") .nil)] →
      ([Json.str "a"] : List Json).length
        = distinctIdCount [Json.obj (.cons idKey (.str "a") .nil)]) :=
  c3_list_ids_sorted [Json.obj (.cons idKey (.str "a") .nil)]
    [Json.str "a"] (by decide)

theorem c6_save_path_witness :
    (save_sample (fun _ => none) [Json.obj (.cons idKey (.str "a") .nil)]
        "d" (.str "a") 0).2.1 ("d" ++ pathBackslash ++ pyStr (.str "a") ++ jsonExt)
      = some (dumpPy (Json.obj (.cons idKey (.str "a") .nil)) 0) ∧
    (∀ p, p ≠ "d" ++ pathBackslash ++ pyStr (.str "a") ++ jsonExt →
      (save_sample (fun _ => none) [Json.obj (.cons idKey (.str "a") .nil)]
        "d" (.str "a") 0).2.1 p = none) :=
  c6_save_path (fun _ => none) [Json.obj (.cons idKey (.str "a") .nil)]
    "d" (.str "a") 0 (Json.obj (.cons idKey (.str "a") .nil)) [] (by decide)
